import Mathlib

/-!
Verification development for the chessadvent engine.

The definitions below are a shallow embedding of `chessadvent/board.py`,
`chessadvent/pieces.py`, `chessadvent/moves.py` and `chessadvent/ai.py`.
Python strings are embedded as `List Char`, Python `set` objects as `List`
with guarded insertion (`List.insert`), Python exceptions as `Option`
(`none` is a raised exception), and the `while True` ray-walker loop as a
fuel-indexed recursion.  Mutable-aliasing behaviour (shared versus owned
arrays) is embedded by an explicit array heap in the `World` section.
List indexing uses `List.getD`; like the Python code, callers only index
with positions produced by `coords_to_index`, which are in range for
boards whose arrays have length `w * h`.
-/

namespace ChessAdvent

/-! ## moves.py -/

/-- `MOVE_DIRS_TO_COORDS`: unit step for each of the eight directions
(0 N, 1 NE, 2 E, 3 SE, 4 S, 5 SW, 6 W, 7 NW).  Directions outside 0..7
never reach this table in the Python code (indexing would raise); they are
given a junk value here. -/
def MOVE_DIRS_TO_COORDS (dir : Nat) : Int × Int :=
  match dir with
  | 0 => (0, -1)
  | 1 => (1, -1)
  | 2 => (1, 0)
  | 3 => (1, 1)
  | 4 => (0, 1)
  | 5 => (-1, 1)
  | 6 => (-1, 0)
  | 7 => (-1, -1)
  | _ => (0, 0)

/-- `Move` from moves.py: destination coordinates plus arrival direction. -/
structure Move where
  x : Int
  y : Int
  dir : Nat
deriving DecidableEq, Repr

/-! ## pieces.py -/

/-- `DIRS = 'uldr'` -/
def DIRS : List Char := ['u', 'l', 'd', 'r']

/-- `Piece.TYPES = 'KQBNRP'` -/
def TYPES : List Char := ['K', 'Q', 'B', 'N', 'R', 'P']

/-- `Piece.PAWN_CHARS = '↑←↓→↟↞↡↠'` -/
def PAWN_CHARS : List Char := ['↑', '←', '↓', '→', '↟', '↞', '↡', '↠']

/-- `Piece` from pieces.py: a character and a team.  The team is a Python
int, embedded as `Int`. -/
structure Piece where
  char : Char
  team : Int
deriving DecidableEq, Repr

/-- `Piece.pawn_char`: `PAWN_CHARS[pawn_type * 4 + DIRS.index(dir)]`;
`none` models the `ValueError` / `IndexError` for invalid arguments. -/
def pawn_char (dir : Char) (pawnType : Nat) : Option Char :=
  (DIRS.findIdx? (· = dir)).bind (fun i => PAWN_CHARS.get? (pawnType * 4 + i))

/-- `Piece.type`: `'P'` for a pawn glyph, the character itself for
`'KQBNRP'`, and `none` models the raised `ValueError` otherwise. -/
def piece_type (c : Char) : Option Char :=
  if c ∈ PAWN_CHARS then some 'P'
  else if c ∈ TYPES then some c
  else none

/-- `Piece.dir`: `DIRS[PAWN_CHARS.index(char) % 4]` for a pawn glyph,
`None` otherwise. -/
def Piece.dir (p : Piece) : Option Char :=
  (PAWN_CHARS.findIdx? (· = p.char)).map (fun i => DIRS.getD (i % 4) 'u')

/-- `Piece.pawn_type`: `PAWN_CHARS.index(char) // 4`; `none` models the
raised `ValueError` for a non-pawn character. -/
def pawn_type (c : Char) : Option Nat :=
  (PAWN_CHARS.findIdx? (· = c)).map (fun i => i / 4)

/-- Modelled from the spec: `MOVE_DIRS_TO_PAWN_DIRS` is imported by
board.py from pieces.py but is absent from the provided pieces.py.  Per
the spec, pawn facings Up/Down/Left/Right map to the cardinal move
directions N/S/W/E, derivable in both directions; this is the
move-direction-to-facing side.  Non-cardinal directions are absent from
the mapping (`none` models the lookup failure). -/
def MOVE_DIRS_TO_PAWN_DIRS (dir : Nat) : Option Char :=
  if dir = 0 then some 'u'
  else if dir = 2 then some 'r'
  else if dir = 4 then some 'd'
  else if dir = 6 then some 'l'
  else none

/-- Modelled from the spec: `Piece.move_dir` is used by
`Board.get_moves` for pawns but is absent from the provided pieces.py.
Per the spec a pawn facing maps to its cardinal move direction
(Up to N, Left to W, Down to S, Right to E). -/
def Piece.move_dir (p : Piece) : Option Nat :=
  p.dir.bind (fun d =>
    if d = 'u' then some 0
    else if d = 'l' then some 6
    else if d = 'd' then some 4
    else if d = 'r' then some 2
    else none)

/-- Modelled from the spec: `N_TEAMS` is imported from pieces.py but is
absent from the provided file, which has `OPPONENT_TEAMS = 4` with the
player always team 0; the spec fixes the number of teams T = 5. -/
def N_TEAMS : Nat := 5

/-- Modelled from the spec: `PIECE_SCORES` is imported by ai.py from
pieces.py but is absent from the provided file.  The spec gives
`piece_value = K 1000, Q 9, R 5, B 3, N 3, P 1`. -/
def PIECE_SCORES (t : Char) : ℚ :=
  if t = 'K' then 1000
  else if t = 'Q' then 9
  else if t = 'R' then 5
  else if t = 'B' then 3
  else if t = 'N' then 3
  else 1

/-! ## board.py: squares -/

/-- `Square.CHARS`: the normal, enter and exit characters followed by the
four bouncer characters. -/
def SQUARE_CHARS : List Char := ['.', 'E', 'X', '\\', '/', '-', '|']

/-- `Square.BOUNCE_CHARS` -/
def BOUNCE_CHARS : List Char := ['\\', '/', '-', '|']

/-- `Square` from board.py. -/
structure Square where
  char : Char
deriving DecidableEq, Repr

/-- `Square._BOUNCES` for one bouncer character, as an association list
(the Python code uses a dict). -/
def bounce_table (c : Char) : List (Nat × Nat) :=
  if c = '\\' then [(0, 6), (2, 4), (1, 5), (6, 0), (4, 2), (5, 1)]
  else if c = '/' then [(0, 2), (6, 4), (7, 3), (2, 0), (4, 6), (3, 7)]
  else if c = '-' then [(0, 4), (1, 3), (7, 5), (4, 0), (3, 1), (5, 7)]
  else if c = '|' then [(2, 6), (1, 7), (3, 5), (6, 2), (7, 1), (5, 3)]
  else []

/-- `Square.is_solid`: every square other than `'.'` is solid. -/
def Square.is_solid (s : Square) : Bool :=
  s.char ≠ '.'

/-- `Square.get_bounce_dir`: dict lookups become association-list
lookups. -/
def Square.get_bounce_dir (s : Square) (dir : Nat) : Option Nat :=
  ((bounce_table s.char).find? (fun p => p.1 = dir)).map (·.2)

/-! ## board.py: Board -/

/-- `Board`: width, height, row-major optional squares and pieces. -/
structure Board where
  w : Nat
  h : Nat
  squares : List (Option Square)
  pieces : List (Option Piece)
deriving DecidableEq, Repr

/-- `Board.coords_to_index`. -/
def Board.coords_to_index (b : Board) (x y : Int) : Option Nat :=
  if x < 0 ∨ (b.w : Int) ≤ x ∨ y < 0 ∨ (b.h : Int) ≤ y then none
  else some (y * (b.w : Int) + x).toNat

/-- `Board.get_piece`. -/
def Board.get_piece (b : Board) (x y : Int) : Option Piece :=
  (b.coords_to_index x y).bind (fun i => b.pieces.getD i none)

/-- `Board.get_square`. -/
def Board.get_square (b : Board) (x y : Int) : Option Square :=
  (b.coords_to_index x y).bind (fun i => b.squares.getD i none)

/-- `Board.set_piece`; `none` models the raised `IndexError` (both for
out-of-range coordinates and for an index past the end of the array). -/
def Board.set_piece (b : Board) (x y : Int) (p : Option Piece) : Option Board :=
  (b.coords_to_index x y).bind (fun i =>
    if i < b.pieces.length then some { b with pieces := b.pieces.set i p }
    else none)

/-- `Board.is_solid_at`. -/
def Board.is_solid_at (b : Board) (x y : Int) : Bool :=
  match b.get_square x y with
  | none => true
  | some s => s.is_solid

/-- `LocatedPiece` from board.py. -/
structure LocatedPiece where
  x : Int
  y : Int
  piece : Piece
deriving DecidableEq, Repr

/-- `PieceMove` from board.py. -/
structure PieceMove where
  piece : LocatedPiece
  move : Move
deriving DecidableEq, Repr

/-- `CheckMoveResult` from board.py. -/
structure CheckMoveResult where
  would_take : Bool
  bounce_dir : Option Nat
deriving DecidableEq, Repr

/-- `CanTake` constants. -/
def CANNOT_TAKE : Nat := 0

def CAN_TAKE : Nat := 1

def MUST_TAKE : Nat := 2

/-! ## board.py: move application -/

/-- `Board.move`: relocate the piece at `(x0, y0)` to `(x1, y1)`; a pawn
is re-faced according to `dir` (or keeps its facing when `dir` is `None`)
and loses its long-range flag.  `none` models the exceptions raised on a
missing piece, an invalid piece character, a direction missing from
`MOVE_DIRS_TO_PAWN_DIRS`, or an out-of-range destination. -/
def Board.move (b : Board) (x0 y0 x1 y1 : Int) (dir : Option Nat) : Option Board :=
  (b.get_piece x0 y0).bind (fun piece =>
    (piece_type piece.char).bind (fun t =>
      (if t = 'P' then
        (match dir with
         | some d => MOVE_DIRS_TO_PAWN_DIRS d
         | none => piece.dir).bind
          (fun pd => (pawn_char pd 0).map (fun c => { piece with char := c }))
      else some piece).bind (fun piece2 =>
        (b.set_piece x0 y0 none).bind (fun b2 =>
          b2.set_piece x1 y1 (some piece2)))))

/-- `Board.apply`. -/
def Board.apply (b : Board) (pm : PieceMove) : Option Board :=
  b.move pm.piece.x pm.piece.y pm.move.x pm.move.y (some pm.move.dir)

/-! ## board.py: move generation -/

/-- The mutable `checked` and `moves` sets of `Board.get_moves`,
threaded explicitly.  Python `set.add` becomes `List.insert` for `moves`
(guarded by the membership test already performed for `checked`). -/
structure GenSt where
  checked : List Move
  moves : List Move
deriving DecidableEq, Repr

/-- The capture-policy gate at the end of `check_move`: `would_take`
against `can_take`, accepting with `(would_take, None)` when neither
gate fires. -/
def take_gate (can_take : Nat) (wt : Bool) : Option CheckMoveResult :=
  if can_take = CANNOT_TAKE ∧ wt then none
  else if can_take = MUST_TAKE ∧ ¬ wt then none
  else some ⟨wt, none⟩

/-- The classification performed by `check_move` once the square is
in range and not yet checked: bounce, blocked (`none`), or accepted,
following the source's order of tests (bounce, then missing or solid
square, then the piece and the capture policy). -/
def check_move_classify (b : Board) (x0 y0 : Int) (team : Int) (x y : Int) (dir : Nat)
    (can_take : Nat) (i : Nat) : Option CheckMoveResult :=
  match (b.squares.getD i none).bind (fun s => s.get_bounce_dir dir) with
  | some bd => some ⟨false, some bd⟩
  | none =>
    match b.squares.getD i none with
    | none => none
    | some sq =>
      if sq.is_solid then none
      else
        match b.pieces.getD i none with
        | none => take_gate can_take false
        | some p =>
          if x = x0 ∧ y = y0 then take_gate can_take false
          else if p.team = team then none
          else take_gate can_take true

/-- `check_move` from `Board.get_moves`: examine one square in one
direction and update the generation state.  In the source the move is
added to `checked` as soon as it is in range and new, and added to
`moves` exactly when the classification accepts it (a non-bounce `some`
result). -/
def check_move (b : Board) (x0 y0 : Int) (team : Int) (x y : Int) (dir : Nat)
    (can_take : Nat) (st : GenSt) : Option CheckMoveResult × GenSt :=
  match b.coords_to_index x y with
  | none => (none, st)
  | some i =>
    if (⟨x, y, dir⟩ : Move) ∈ st.checked then (none, st)
    else
      let res := check_move_classify b x0 y0 team x y dir can_take i
      (res,
       ⟨⟨x, y, dir⟩ :: st.checked,
        match res with
        | some ⟨_, none⟩ => st.moves.insert ⟨x, y, dir⟩
        | _ => st.moves⟩)

/-- Whether the `while` loop of `check_line` stops because
`max_moves is not None and n_moves >= max_moves`. -/
def max_reached (max_moves : Option Nat) (n : Nat) : Bool :=
  match max_moves with
  | none => false
  | some m => m ≤ n

/-- The `while True` loop of `check_line`, indexed by fuel.  Every
recursive step strictly grows `checked`, so any fuel of at least
`8 * w * h` computes the loop's true (terminating) result; this is proved
below. -/
def check_line_loop (b : Board) (x0 y0 : Int) (team : Int) (can_take : Nat)
    (max_moves : Option Nat) :
    Nat → Int → Int → Nat → Int → Int → Nat → GenSt → GenSt
  | 0, _, _, _, _, _, _, st => st
  | fuel + 1, x, y, dir, addx, addy, n_moves, st =>
    match check_move b x0 y0 team x y dir can_take st with
    | (none, st2) => st2
    | (some r, st2) =>
      if r.would_take then st2
      else
        let next : Nat × Int × Int × Nat :=
          match r.bounce_dir with
          | some bd => (bd, (MOVE_DIRS_TO_COORDS bd).1, (MOVE_DIRS_TO_COORDS bd).2, n_moves)
          | none => (dir, addx, addy, n_moves + 1)
        if max_reached max_moves next.2.2.2 then st2
        else
          check_line_loop b x0 y0 team can_take max_moves fuel
            (x + next.2.1) (y + next.2.2.1) next.1 next.2.1 next.2.2.1 next.2.2.2 st2

/-- `check_line` from `Board.get_moves`. -/
def check_line (b : Board) (x0 y0 : Int) (team : Int) (fuel : Nat) (dir : Nat)
    (max_moves : Option Nat) (can_take : Nat) (st : GenSt) : GenSt :=
  let step := MOVE_DIRS_TO_COORDS dir
  check_line_loop b x0 y0 team can_take max_moves fuel
    (x0 + step.1) (y0 + step.2) dir step.1 step.2 0 st

/-- The eight L-shaped candidate moves examined for a knight at
`(x, y)`, with their nominal directions. -/
def knight_cands (x y : Int) : List Move :=
  [⟨x - 1, y - 2, 0⟩, ⟨x - 2, y - 1, 6⟩, ⟨x - 2, y + 1, 6⟩, ⟨x - 1, y + 2, 4⟩,
   ⟨x + 1, y + 2, 4⟩, ⟨x + 2, y + 1, 2⟩, ⟨x + 2, y - 1, 2⟩, ⟨x + 1, y - 2, 0⟩]

/-- The two diagonal-capture candidate moves examined for a pawn at
`(x, y)` with move direction `F`: offsets of directions `(F+7) % 8` and
`(F+1) % 8`, both recorded with arrival direction `F`. -/
def pawn_diag_cands (x y : Int) (F : Nat) : List Move :=
  [⟨x + (MOVE_DIRS_TO_COORDS ((F + 7) % 8)).1, y + (MOVE_DIRS_TO_COORDS ((F + 7) % 8)).2, F⟩,
   ⟨x + (MOVE_DIRS_TO_COORDS ((F + 1) % 8)).1, y + (MOVE_DIRS_TO_COORDS ((F + 1) % 8)).2, F⟩]

/-- A sequence of `check_line` calls, one per direction, threading the
generation state (`check_rook`, `check_bishop` and the king and queen
bodies are such sequences). -/
def check_lines (b : Board) (x0 y0 : Int) (team : Int) (fuel : Nat)
    (max_moves : Option Nat) (can_take : Nat) : List Nat → GenSt → GenSt
  | [], st => st
  | d :: ds, st =>
    check_lines b x0 y0 team fuel max_moves can_take ds
      (check_line b x0 y0 team fuel d max_moves can_take st)

/-- A sequence of direct `check_move` calls at given target cells and
nominal directions, threading the generation state and discarding each
result (the knight's eight checks and the pawn's two diagonal checks). -/
def check_moves_at (b : Board) (x0 y0 : Int) (team : Int) (can_take : Nat) :
    List Move → GenSt → GenSt
  | [], st => st
  | m :: ms, st =>
    check_moves_at b x0 y0 team can_take ms
      (check_move b x0 y0 team m.x m.y m.dir can_take st).2

/-- `Board.get_moves`, fuel-indexed, returning the full generation state
(`checked` and `moves`).  `none` models the exceptions raised on a
missing piece or an invalid piece character.  The direction lists are the
source's call sequences: N,S,E,W then NW,NE,SW,SE for the king and queen,
the cardinals for the rook, the diagonals for the bishop. -/
def get_moves_st_fuel (b : Board) (x y : Int) (fuel : Nat) : Option GenSt :=
  (b.get_piece x y).bind (fun piece =>
    (piece_type piece.char).bind (fun t =>
      if t = 'K' then
        some (check_lines b x y piece.team fuel (some 1) CAN_TAKE [0, 4, 2, 6, 7, 1, 5, 3]
          ⟨[], []⟩)
      else if t = 'Q' then
        some (check_lines b x y piece.team fuel none CAN_TAKE [0, 4, 2, 6, 7, 1, 5, 3] ⟨[], []⟩)
      else if t = 'R' then
        some (check_lines b x y piece.team fuel none CAN_TAKE [0, 4, 2, 6] ⟨[], []⟩)
      else if t = 'B' then
        some (check_lines b x y piece.team fuel none CAN_TAKE [7, 1, 5, 3] ⟨[], []⟩)
      else if t = 'N' then
        some (check_moves_at b x y piece.team CAN_TAKE (knight_cands x y) ⟨[], []⟩)
      else if t = 'P' then
        piece.move_dir.bind (fun dir =>
          (pawn_type piece.char).bind (fun pt =>
            some (check_line b x y piece.team fuel dir (some (1 + pt)) CANNOT_TAKE
              (check_moves_at b x y piece.team MUST_TAKE (pawn_diag_cands x y dir) ⟨[], []⟩))))
      else
        some ⟨[], []⟩))

/-- `Board.get_moves` with the fuel fixed at its sufficient value. -/
def Board.get_moves_st (b : Board) (x y : Int) : Option GenSt :=
  get_moves_st_fuel b x y (8 * b.w * b.h)

/-- The `moves` set returned by `Board.get_moves`. -/
def Board.get_moves (b : Board) (x y : Int) : Option (List Move) :=
  (b.get_moves_st x y).map GenSt.moves

/-! ## board.py: state fingerprint -/

/-- The piece part of a cell's contribution to `Board.get_state_id`:
empty when no piece is present, otherwise the decimal representation of
the team followed by the glyph. -/
def piece_enc : Option Piece → List Char
  | none => []
  | some p => (toString p.team).data ++ [p.char]

/-- The contribution of one cell to `Board.get_state_id`: `'#'` for a
hole, otherwise the square's character followed by the piece part. -/
def cell_enc (c : Option Square × Option Piece) : List Char :=
  match c.1 with
  | none => ['#']
  | some s => s.char :: piece_enc c.2

/-- `Board.get_state_id`: the Python string is embedded as `List Char`. -/
def Board.get_state_id (b : Board) : List Char :=
  (b.squares.zip b.pieces).flatMap cell_enc

/-! ## board.py: serialization -/

/-- A leaf of the JSON document: element sequences of the `pieces` field
mix strings and integers. -/
inductive DocAtom where
  | str (c : Char)
  | int (n : Int)
deriving DecidableEq, Repr

/-- The plain-data document consumed by `Board.load` and produced by
`Board.dump`. -/
structure Doc where
  w : Nat
  h : Nat
  squares : List (Option (List Char))
  pieces : List (Option (List DocAtom))
deriving DecidableEq, Repr

/-- `_load_tuple(d, Square)`: `None` stays `None`; `Square(*d)` succeeds
exactly when `d` has one element (any character); `none` models the
`TypeError` raised otherwise. -/
def load_square : Option (List Char) → Option (Option Square)
  | none => some none
  | some [c] => some (some ⟨c⟩)
  | some _ => none

/-- `_load_tuple(d, Piece)`: `Piece(*d)` succeeds when `d` is
`[char]` (team defaults to 0) or `[char, team]`; `none` models the
`TypeError` raised otherwise. -/
def load_piece : Option (List DocAtom) → Option (Option Piece)
  | none => some none
  | some [DocAtom.str c] => some (some ⟨c, 0⟩)
  | some [DocAtom.str c, DocAtom.int t] => some (some ⟨c, t⟩)
  | some _ => none

/-- A Python list comprehension whose body may raise: the first failure
aborts the whole expression. -/
def opt_map_list (f : α → Option β) : List α → Option (List β)
  | [] => some []
  | a :: l => match f a with
    | none => none
    | some b => (opt_map_list f l).map (b :: ·)

/-- `Board.load`.  Note that beyond the per-element constructor arity it
performs no validation: lengths, characters and teams are taken
verbatim. -/
def Board.load (d : Doc) : Option Board :=
  (opt_map_list load_square d.squares).bind (fun sqs =>
    (opt_map_list load_piece d.pieces).map (fun pcs =>
      ⟨d.w, d.h, sqs, pcs⟩))

/-- `Board.dump`. -/
def Board.dump (b : Board) : Doc :=
  ⟨b.w, b.h,
   b.squares.map (fun sq => match sq with
     | none => none
     | some s => some [s.char]),
   b.pieces.map (fun pc => match pc with
     | none => none
     | some p => some [DocAtom.str p.char, DocAtom.int p.team])⟩

/-! ## Aliasing model for `copy_for_trying_out_moves`

Python boards hold references to list objects; `copy_for_trying_out_moves`
shares the squares list and copies the pieces list, and `move` mutates the
pieces list in place.  The heap of list objects is made explicit: a
`World` stores the arrays, a `BoardRef` names them by index. -/

/-- The heap of square arrays and piece arrays. -/
structure World where
  squaresArrs : List (List (Option Square))
  piecesArrs : List (List (Option Piece))
deriving DecidableEq, Repr

/-- A Python `Board` object: dimensions plus references into the heap. -/
structure BoardRef where
  w : Nat
  h : Nat
  squaresId : Nat
  piecesId : Nat
deriving DecidableEq, Repr

/-- Dereference a board: the value-level `Board` seen through `r`. -/
def World.read_board (wld : World) (r : BoardRef) : Board :=
  ⟨r.w, r.h, wld.squaresArrs.getD r.squaresId [], wld.piecesArrs.getD r.piecesId []⟩

/-- `Board.copy_for_trying_out_moves`: share the squares array, allocate
a fresh copy of the pieces array. -/
def World.copy_for_trying_out_moves (wld : World) (r : BoardRef) : BoardRef × World :=
  (⟨r.w, r.h, r.squaresId, wld.piecesArrs.length⟩,
   ⟨wld.squaresArrs, wld.piecesArrs ++ [wld.piecesArrs.getD r.piecesId []]⟩)

/-- `Board.apply` against the heap: the in-place mutation of the pieces
list is a write to the array `r.piecesId`; `Board.move` never touches the
squares array. -/
def World.apply_ref (wld : World) (r : BoardRef) (pm : PieceMove) : Option World :=
  ((wld.read_board r).apply pm).map (fun b2 =>
    ⟨wld.squaresArrs, wld.piecesArrs.set r.piecesId b2.pieces⟩)

/-! ## board.py: list_pieces, BoardState; ai.py

Scores are Python floats built from `1`, `-1`, `0.02 = 1/50` and
`-0.1 = -1/10`; they are embedded as rationals. -/

/-- `MOVE_WEIGHT = .02` -/
def MOVE_WEIGHT : ℚ := 1 / 50

/-- `STUCK_PIECE_WEIGHT = -.1` -/
def STUCK_PIECE_WEIGHT : ℚ := -1 / 10

/-- `Board.list_pieces()` (no team filter): row-major enumeration of the
present pieces, with `i % w` and `i // w` as coordinates. -/
def Board.list_pieces (b : Board) : List LocatedPiece :=
  b.pieces.enum.filterMap (fun ip =>
    ip.2.map (fun p => LocatedPiece.mk ((ip.1 % b.w : Nat) : Int) ((ip.1 / b.w : Nat) : Int) p))

/-- The per-team `(located_piece, moves)` lists of `BoardState`, indexed
0..4; `none` models the exceptions raised when a piece's team is outside
`range(N_TEAMS)` (a `KeyError`) or when `get_moves` raises. -/
def Board.state_buckets (b : Board) : Option (List (List (LocatedPiece × List Move))) :=
  (opt_map_list (fun lp =>
      (b.get_moves lp.x lp.y).map (fun ms => (lp, ms))) b.list_pieces).bind
    (fun pams =>
      if pams.all (fun pam =>
          decide (0 ≤ pam.1.piece.team) && decide (pam.1.piece.team < (N_TEAMS : Int))) then
        some ((List.range N_TEAMS).map (fun t =>
          pams.filter (fun pam => pam.1.piece.team == (t : Int))))
      else none)

/-- `BoardState.teams`: teams owning at least one piece. -/
def state_teams (buckets : List (List (LocatedPiece × List Move))) : List Nat :=
  (List.range N_TEAMS).filter (fun t => !(buckets.getD t []).isEmpty)

/-- `FutureSeekerAI.get_state_score` for the AI of team `aiTeam`: summed
material and mobility, weighted per team. -/
def get_state_score (aiTeam : Int) (buckets : List (List (LocatedPiece × List Move))) : ℚ :=
  ((state_teams buckets).map (fun (t : Nat) =>
    let sign : ℚ := if (t : Int) = aiTeam then 1 else -1
    let pams := buckets.getD t []
    let material : ℚ := (TYPES.map (fun ty =>
      PIECE_SCORES ty *
        ((pams.filter (fun pam => piece_type pam.1.piece.char == some ty)).length : ℚ) *
        sign)).sum
    let mobility : ℚ := (pams.map (fun pam =>
      if pam.2 = [] then STUCK_PIECE_WEIGHT * sign
      else (pam.2.length : ℚ) * (MOVE_WEIGHT * sign))).sum
    material + mobility)).sum

/-- Stable descending insertion by score: Python's stable `sort` with
`reverse=True` places an element before the first strictly-smaller
score. -/
def insert_desc (a : Option PieceMove × ℚ) :
    List (Option PieceMove × ℚ) → List (Option PieceMove × ℚ)
  | [] => [a]
  | b :: l => if b.2 < a.2 then a :: b :: l else b :: insert_desc a l

/-- Stable sort by score, highest first. -/
def sort_desc : List (Option PieceMove × ℚ) → List (Option PieceMove × ℚ)
  | [] => []
  | a :: l => insert_desc a (sort_desc l)

/-- The body of `FutureSeekerAI._find_next_moves_future` for one
recursion level, parameterized by the scoring function applied to a
candidate move (`none` is "the empty move").  Mirrors `get_board_score`:
the trial board is built, its state is always computed (it may raise),
and `score_of` consumes the trial board. -/
def find_core (score_of : Board → Option ℚ) (b : Board) (team : Int)
    (allowEmpty : Bool) : Option (List (Option PieceMove × ℚ)) :=
  (b.state_buckets).bind (fun buckets =>
    let pams := if 0 ≤ team ∧ team < N_TEAMS then buckets.getD team.toNat [] else []
    let board_score : Option PieceMove → Option ℚ := fun pm =>
      (match pm with
       | some pm => b.apply pm
       | none => some b).bind (fun nb =>
        (nb.state_buckets).bind (fun _ => score_of nb))
    if pams = [] then
      if allowEmpty then
        (board_score none).map (fun s => [(none, s)])
      else some []
    else
      (opt_map_list (fun pm => (board_score (some pm)).map (fun s => (some pm, s)))
        (pams.flatMap (fun pam => pam.2.map (fun m => PieceMove.mk pam.1 m)))).map
        sort_desc)

/-- `FutureSeekerAI._find_next_moves_future` for the AI of team `aiTeam`,
with explicit `future_sight`, `team` and `allow_the_empty_move`
arguments.  With `future_sight = 0` the score of a candidate board is its
state score; otherwise it is the score of the best reply found by the
recursive call for the next team, and `none` models the `IndexError`
raised by `future_next_moves[0]` when that call returns no moves. -/
def find_next_moves_future (aiTeam : Int) :
    Nat → Board → Int → Bool → Option (List (Option PieceMove × ℚ))
  | 0, b, team, allowEmpty =>
    find_core (fun nb => (nb.state_buckets).map (get_state_score aiTeam)) b team allowEmpty
  | fs + 1, b, team, allowEmpty =>
    find_core (fun nb =>
      (find_next_moves_future aiTeam fs nb ((team + 1) % (N_TEAMS : Int)) true).bind
        (fun l => l.head?.map (·.2)))
      b team allowEmpty

/-- A well-formed cell for fingerprinting purposes (the spec's cell
invariant plus decimal-digit teams): a hole carries no piece, a present
square has a legal square character, and a piece's team is a single
decimal digit (the spec's teams 0..4 are). -/
def cell_ok (c : Option Square × Option Piece) : Prop :=
  (c.1 = none → c.2 = none) ∧
  (∀ s, c.1 = some s → s.char ∈ SQUARE_CHARS) ∧
  (∀ p, c.2 = some p → 0 ≤ p.team ∧ p.team < 10)

/-! ## Predicates about generated moves -/

/-- Legality of a generated move for the piece of team `team` at
`(x0, y0)`: an in-range destination, a present non-solid (`Normal`)
destination square, and any same-team piece at the destination is the
moving piece itself (destination = origin). -/
def move_ok (b : Board) (x0 y0 : Int) (team : Int) (m : Move) : Prop :=
  (b.coords_to_index m.x m.y).isSome ∧
  b.get_square m.x m.y = some ⟨'.'⟩ ∧
  ∀ q, b.get_piece m.x m.y = some q → q.team = team → (m.x = x0 ∧ m.y = y0)

/-- Every move the `moves` set of a generation state satisfies
`move_ok`. -/
def moves_ok (b : Board) (x0 y0 : Int) (team : Int) (st : GenSt) : Prop :=
  ∀ m ∈ st.moves, move_ok b x0 y0 team m

/-- All moves with in-range coordinates and direction below 8; the
`checked` set can only ever hold such moves. -/
def all_moves (b : Board) : List Move :=
  (List.range b.w).flatMap (fun x =>
    (List.range b.h).flatMap (fun y =>
      (List.range 8).map (fun d => ⟨(x : Int), (y : Int), d⟩)))

/-- Invariant of the generation state: `checked` holds no duplicate
(x, y, dir) triple, and only in-range triples with direction below 8. -/
def gen_inv (b : Board) (st : GenSt) : Prop :=
  st.checked.Nodup ∧ ∀ m ∈ st.checked, m ∈ all_moves b

/-- The generation state after the pawn's two direct diagonal-capture
checks, before the forward walk. -/
def pawn_diag_state (b : Board) (x y : Int) (team : Int) (F : Nat) : GenSt :=
  check_moves_at b x y team MUST_TAKE (pawn_diag_cands x y F) ⟨[], []⟩

/-! ## Concrete instances used by counterexamples and witnesses -/

/-- A 2 x 1 board: a team-0 rook on the normal square (0,0) and a `|`
bouncer at (1,0).  The rook's eastward ray bounces back to its own
square. -/
def boardRookBounce : Board := ⟨2, 1, [some ⟨'.'⟩, some ⟨'|'⟩], [some ⟨'R', 0⟩, none]⟩

/-- A 2 x 2 board: a team-0 pawn facing north at (0,1) and a team-1
knight at (1,0), its north-east diagonal-capture target. -/
def boardPawnDiag : Board := ⟨2, 2, [some ⟨'.'⟩, some ⟨'.'⟩, some ⟨'.'⟩, some ⟨'.'⟩],
  [none, some ⟨'N', 1⟩, some ⟨'↑', 0⟩, none]⟩

/-- A 1 x 2 board with a king at (0,0). -/
def boardTall : Board := ⟨1, 2, [some ⟨'.'⟩, some ⟨'.'⟩], [some ⟨'K', 0⟩, none]⟩

/-- A 2 x 1 board with the same flat square and piece lists as
`boardTall`. -/
def boardWide : Board := ⟨2, 1, [some ⟨'.'⟩, some ⟨'.'⟩], [some ⟨'K', 0⟩, none]⟩

/-- A 4 x 1 board: team 0 king at (0,0) free to move east; team 1 king at
(3,0) walled in by the hole at (2,0), so it has a piece but no moves. -/
def boardStuck : Board := ⟨4, 1, [some ⟨'.'⟩, some ⟨'.'⟩, none, some ⟨'.'⟩],
  [some ⟨'K', 0⟩, none, none, some ⟨'K', 1⟩]⟩

/-- `boardStuck` after team 0's only move (king east to (1,0)). -/
def boardStuckAfter : Board := ⟨4, 1, [some ⟨'.'⟩, some ⟨'.'⟩, none, some ⟨'.'⟩],
  [none, some ⟨'K', 0⟩, none, some ⟨'K', 1⟩]⟩

/-- A document violating the spec schema: `squares` has length 1 on a
claimed 2 x 2 board, `pieces` has length 1, and the square character
`'#'` is not a legal square character. -/
def docBad : Doc := ⟨2, 2, [some ['#']], [none]⟩

/-- A minimal document conforming to the spec schema. -/
def docGood : Doc := ⟨1, 1, [some ['.']], [some [DocAtom.str 'K', DocAtom.int 0]]⟩

/-- A 3 x 3 all-normal board with a team-0 knight at (0,0); two of its
eight L-shaped targets, (2,1) and (1,2), are on the board. -/
def boardKnight : Board :=
  ⟨3, 3, (List.replicate 9 (some (Square.mk '.')) : List (Option Square)),
   (some ⟨'N', 0⟩) :: (List.replicate 8 none : List (Option Piece))⟩

/-! ## Schema predicates (from the spec's document format, section 6) -/

/-- A `squares` element conforming to the schema: null or `[char]` with a
legal square character. -/
def square_doc_valid : Option (List Char) → Prop
  | none => True
  | some [c] => c ∈ SQUARE_CHARS
  | some _ => False

/-- A `pieces` element conforming to the schema: null or `[char, team]`
with a legal piece glyph and a team in `0..T-1`. -/
def piece_doc_valid : Option (List DocAtom) → Prop
  | none => True
  | some [DocAtom.str c, DocAtom.int t] =>
    (c ∈ (['K', 'Q', 'B', 'N', 'R'] : List Char) ∨ c ∈ PAWN_CHARS) ∧
      0 ≤ t ∧ t < (N_TEAMS : Int)
  | some _ => False

/-- A document conforming to the spec schema. -/
def doc_valid (d : Doc) : Prop :=
  0 < d.w ∧ 0 < d.h ∧
  d.squares.length = d.w * d.h ∧ d.pieces.length = d.w * d.h ∧
  (∀ s ∈ d.squares, square_doc_valid s) ∧ (∀ p ∈ d.pieces, piece_doc_valid p)

/-- The only thing `Board.load` actually checks of a `squares` element:
`Square(*d)` wants exactly one positional argument. -/
def square_doc_arity_ok : Option (List Char) → Prop
  | none => True
  | some l => l.length = 1

/-- The only thing `Board.load` actually checks of a `pieces` element:
`Piece(*d)` wants a character, optionally followed by a team. -/
def piece_doc_arity_ok : Option (List DocAtom) → Prop
  | none => True
  | some [DocAtom.str _] => True
  | some [DocAtom.str _, DocAtom.int _] => True
  | some _ => False

/-- A 1 x 2 all-normal board with a long-range team-0 pawn facing north
at (0,1). -/
def boardPawnMove : Board := ⟨1, 2, [some ⟨'.'⟩, some ⟨'.'⟩], [none, some ⟨'↟', 0⟩]⟩

/-- Advancing `boardPawnMove`'s pawn one square north. -/
def pmPawn : PieceMove := ⟨⟨0, 1, ⟨'↟', 0⟩⟩, ⟨0, 0, 0⟩⟩

/-- `boardPawnMove` after `pmPawn`: the pawn is re-faced short-range. -/
def boardPawnMoved : Board := ⟨1, 2, [some ⟨'.'⟩, some ⟨'.'⟩], [some ⟨'↑', 0⟩, none]⟩

/-- A one-board heap: a 2 x 1 all-normal board with a team-0 king. -/
def worldK : World := ⟨[[some ⟨'.'⟩, some ⟨'.'⟩]], [[some ⟨'K', 0⟩, none]]⟩

/-- The reference to the board stored in `worldK`. -/
def refK : BoardRef := ⟨2, 1, 0, 0⟩

/-- Moving `worldK`'s king one square east. -/
def pmK : PieceMove := ⟨⟨0, 0, ⟨'K', 0⟩⟩, ⟨1, 0, 2⟩⟩

end ChessAdvent

namespace ChessAdvent

/-! ## Claim theorems -/

/-- `getD` into the left part of an append. -/
theorem list_getD_append {α : Type} (l1 l2 : List α) (d : α) :
    ∀ i, i < l1.length → (l1 ++ l2).getD i d = l1.getD i d := by
  induction l1 with
  | nil => intro i hi; simp at hi
  | cons a l ih =>
    intro i hi
    cases i with
    | zero => rfl
    | succ j => exact ih j (by simpa using hi)

/-- `getD` at the index of a freshly appended element. -/
theorem list_getD_concat_length {α : Type} (l : List α) (a d : α) :
    (l ++ [a]).getD l.length d = a := by
  induction l with
  | nil => rfl
  | cons b l ih => simp [ih]

/-- `getD` is unchanged by a `set` at a different index. -/
theorem list_getD_set_ne {α : Type} (a d : α) :
    ∀ (l : List α) (i j : Nat), i ≠ j → (l.set i a).getD j d = l.getD j d := by
  intro l
  induction l with
  | nil => intro i j _; simp
  | cons b l ih =>
    intro i j hne
    cases i with
    | zero =>
      cases j with
      | zero => exact absurd rfl hne
      | succ j2 => rfl
    | succ i2 =>
      cases j with
      | zero => rfl
      | succ j2 => exact ih i2 j2 (fun hc => hne (by omega))

/-- Claim C1, counterexample: two boards with equal fingerprints but
different widths and different move sets at (0,0).  `get_state_id` does
not encode `w` and `h`, so equal fingerprints do not make two boards
equivalent for move generation. -/
theorem c1_counterexample :
    boardTall.get_state_id = boardWide.get_state_id ∧
    boardTall.w ≠ boardWide.w ∧
    boardTall.get_moves 0 0 ≠ boardWide.get_moves 0 0 := by
  decide

/-- Claim C2, counterexample: on `boardRookBounce` the generated set is
exactly the bounced move back onto the rook's own square (0,0), whose
cell holds the moving team-0 rook itself — a generated destination
containing a piece of the moving piece's own team. -/
theorem c2_counterexample :
    boardRookBounce.get_moves 0 0 = some [⟨0, 0, 6⟩] ∧
    boardRookBounce.get_piece 0 0 = some ⟨'R', 0⟩ := by
  decide

/-- Claim C3, counterexample: the pawn at (0,1) faces north (move
direction F = 0).  Its north-east diagonal capture is generated with
move-direction F = 0, `Move (1, 0, 0)`, not with move-direction
`(F+1) % 8 = 1` as the claim states: `Move (1, 0, 1)` is absent. -/
theorem c3_counterexample :
    boardPawnDiag.get_moves 0 1 = some [⟨0, 0, 0⟩, ⟨1, 0, 0⟩] ∧
    Move.mk 1 0 1 ∉ [Move.mk 0 0 0, Move.mk 1 0 0] := by
  decide

/-- Claim C5, failing evaluation: on `boardStuckAfter` team 1 owns a
piece but has no legal move, so the recursive call with remaining depth
1 and `allow_the_empty_move = True` returns the empty move list instead
of the claimed pass-through score, and the enclosing depth-2 search
crashes (the model's `none`) on `future_next_moves[0]`. -/
theorem c5_stuck_team_failing_eval :
    find_next_moves_future 0 1 boardStuckAfter 1 true = some [] ∧
    find_next_moves_future 0 2 boardStuck 0 false = none := by
  decide

/-- `getD` after a `set` at the same (in-range) index. -/
theorem list_getD_set_eq {α : Type} (a d : α) :
    ∀ (l : List α) (i : Nat), i < l.length → (l.set i a).getD i d = a := by
  intro l
  induction l with
  | nil => intro i hi; simp at hi
  | cons b l ih =>
    intro i hi
    cases i with
    | zero => rfl
    | succ j => exact ih j (by simpa using hi)

/-- `coords_to_index` depends only on the dimensions. -/
theorem coords_to_index_congr (b b2 : Board) (hw : b2.w = b.w) (hh : b2.h = b.h)
    (x y : Int) : b2.coords_to_index x y = b.coords_to_index x y := by
  unfold Board.coords_to_index
  rw [hw, hh]

/-- Two coordinate pairs mapping to the same index are equal. -/
theorem coords_to_index_inj (b : Board) (x0 y0 x1 y1 : Int) (i : Nat)
    (h0 : b.coords_to_index x0 y0 = some i) (h1 : b.coords_to_index x1 y1 = some i) :
    x0 = x1 ∧ y0 = y1 := by
  unfold Board.coords_to_index at h0 h1
  split at h0
  · exact absurd h0 (by simp)
  split at h1
  · exact absurd h1 (by simp)
  rename_i hc0 hc1
  push_neg at hc0 hc1
  obtain ⟨hx0, hx0w, hy0, hy0h⟩ := hc0
  obtain ⟨hx1, hx1w, hy1, hy1h⟩ := hc1
  rw [Option.some_inj] at h0 h1
  have hcomm0 : y0 * (b.w : Int) = (b.w : Int) * y0 := mul_comm _ _
  have hcomm1 : y1 * (b.w : Int) = (b.w : Int) * y1 := mul_comm _ _
  have hnn0 : 0 ≤ y0 * (b.w : Int) := mul_nonneg hy0 (Int.natCast_nonneg _)
  have hnn1 : 0 ≤ y1 * (b.w : Int) := mul_nonneg hy1 (Int.natCast_nonneg _)
  have e : x0 + (b.w : Int) * y0 = x1 + (b.w : Int) * y1 := by omega
  have hwpos : (0 : Int) < (b.w : Int) := lt_of_le_of_lt hx0 hx0w
  have hy : y0 = y1 := by
    have d0 : (x0 + (b.w : Int) * y0) / (b.w : Int) = y0 := by
      rw [Int.add_mul_ediv_left x0 y0 hwpos.ne', Int.ediv_eq_zero_of_lt hx0 hx0w, zero_add]
    have d1 : (x1 + (b.w : Int) * y1) / (b.w : Int) = y1 := by
      rw [Int.add_mul_ediv_left x1 y1 hwpos.ne', Int.ediv_eq_zero_of_lt hx1 hx1w, zero_add]
    rw [← d0, ← d1, e]
  rw [hy] at e
  exact ⟨by omega, hy⟩

/-- Unfolding a successful `set_piece`. -/
theorem set_piece_eq (b : Board) (x y : Int) (pc : Option Piece) (b2 : Board)
    (h : b.set_piece x y pc = some b2) :
    ∃ i, b.coords_to_index x y = some i ∧ i < b.pieces.length ∧
      b2.w = b.w ∧ b2.h = b.h ∧ b2.squares = b.squares ∧ b2.pieces = b.pieces.set i pc := by
  unfold Board.set_piece at h
  cases hidx : b.coords_to_index x y with
  | none => rw [hidx] at h; exact absurd h (by simp)
  | some i =>
    rw [hidx] at h
    simp only [Option.some_bind] at h
    split at h
    · rename_i hlt
      refine ⟨i, rfl, hlt, ?_⟩
      obtain rfl : ({ b with pieces := b.pieces.set i pc } : Board) = b2 :=
        Option.some_inj.mp h
      exact ⟨rfl, rfl, rfl, rfl⟩
    · exact absurd h (by simp)

/-- Claim C7: a successful `apply` places the moved piece at the move's
destination (overwriting whatever was there), clears the source cell when
it differs from the destination, preserves the piece's team, leaves
non-pawns unchanged, and re-faces a pawn to the pawn direction matching
the move's arrival direction with its long-range flag cleared
(`pawn_type` 0). -/

theorem c7_apply_spec (b : Board) (pm : PieceMove) (p : Piece) (b2 : Board)
    (hp : b.get_piece pm.piece.x pm.piece.y = some p)
    (happ : b.apply pm = some b2) :
    ∃ p2 : Piece,
      b2.get_piece pm.move.x pm.move.y = some p2 ∧
      p2.team = p.team ∧
      (piece_type p.char ≠ some 'P' → p2 = p) ∧
      (piece_type p.char = some 'P' →
        Piece.dir p2 = MOVE_DIRS_TO_PAWN_DIRS pm.move.dir ∧
        pawn_type p2.char = some 0) ∧
      (¬ (pm.move.x = pm.piece.x ∧ pm.move.y = pm.piece.y) →
        b2.get_piece pm.piece.x pm.piece.y = none) := by
  unfold Board.apply Board.move at happ
  rw [hp] at happ
  simp only [Option.some_bind] at happ
  cases htyp : piece_type p.char with
  | none => rw [htyp] at happ; exact absurd happ (by simp)
  | some t =>
    rw [htyp] at happ
    simp only [Option.some_bind] at happ
    rw [Option.bind_eq_some] at happ
    obtain ⟨p2, hX, hf⟩ := happ
    rw [Option.bind_eq_some] at hf
    obtain ⟨b1, hb1, hb2⟩ := hf
    obtain ⟨i0, hi0, hi0len, hw1, hh1, hsq1, hpc1⟩ := set_piece_eq _ _ _ _ _ hb1
    obtain ⟨i1, hi1, hi1len, hw2, hh2, hsq2, hpc2⟩ := set_piece_eq _ _ _ _ _ hb2
    have hci1 : b.coords_to_index pm.move.x pm.move.y = some i1 := by
      rw [← coords_to_index_congr b b1 hw1 hh1]; exact hi1
    have hwc : b2.w = b.w := by rw [hw2, hw1]
    have hhc : b2.h = b.h := by rw [hh2, hh1]
    refine ⟨p2, ?_, ?_, ?_, ?_, ?_⟩
    · unfold Board.get_piece
      rw [coords_to_index_congr b b2 hwc hhc, hci1]
      simp only [Option.some_bind, hpc2]
      exact list_getD_set_eq _ _ _ _ hi1len
    · -- team preserved
      by_cases hP : t = 'P'
      · subst hP
        rw [if_pos rfl] at hX
        rw [Option.bind_eq_some] at hX
        obtain ⟨pd, hpd, hX⟩ := hX
        rw [Option.map_eq_some'] at hX
        obtain ⟨c, hc, rfl⟩ := hX
        rfl
      · rw [if_neg hP, Option.some_inj] at hX
        rw [← hX]
    · intro hnp
      have hP : ¬ t = 'P' := by
        intro hc; subst hc; exact hnp rfl
      rw [if_neg hP, Option.some_inj] at hX
      exact hX.symm
    · intro hPt
      have hP : t = 'P' := Option.some_inj.mp hPt
      subst hP
      rw [if_pos rfl] at hX
      rw [Option.bind_eq_some] at hX
      obtain ⟨pd, hpd, hX⟩ := hX
      rw [Option.map_eq_some'] at hX
      obtain ⟨c, hc, rfl⟩ := hX
      rw [hpd]
      unfold MOVE_DIRS_TO_PAWN_DIRS at hpd
      split_ifs at hpd with h0 h2 h4 h6
      · rw [Option.some_inj] at hpd; subst hpd
        obtain rfl : c = '↑' := by
          rw [show pawn_char 'u' 0 = some '↑' from rfl, Option.some_inj] at hc
          exact hc.symm
        exact ⟨rfl, rfl⟩
      · rw [Option.some_inj] at hpd; subst hpd
        obtain rfl : c = '→' := by
          rw [show pawn_char 'r' 0 = some '→' from rfl, Option.some_inj] at hc
          exact hc.symm
        exact ⟨rfl, rfl⟩
      · rw [Option.some_inj] at hpd; subst hpd
        obtain rfl : c = '↓' := by
          rw [show pawn_char 'd' 0 = some '↓' from rfl, Option.some_inj] at hc
          exact hc.symm
        exact ⟨rfl, rfl⟩
      · rw [Option.some_inj] at hpd; subst hpd
        obtain rfl : c = '←' := by
          rw [show pawn_char 'l' 0 = some '←' from rfl, Option.some_inj] at hc
          exact hc.symm
        exact ⟨rfl, rfl⟩
    · intro hne
      have hci0 : b2.coords_to_index pm.piece.x pm.piece.y = some i0 := by
        rw [coords_to_index_congr b b2 hwc hhc]; exact hi0
      have hne10 : i1 ≠ i0 := by
        intro he
        subst he
        have := coords_to_index_inj b pm.move.x pm.move.y pm.piece.x pm.piece.y i1 hci1 hi0
        exact hne this
      unfold Board.get_piece
      rw [hci0]
      simp only [Option.some_bind, hpc2, hpc1]
      rw [list_getD_set_ne _ _ _ _ _ hne10, list_getD_set_eq _ _ _ _ hi0len]

/-- Claim C7, witness: the long-range north pawn of `boardPawnMove`
advanced to (0,0) arrives as a short-range north-facing pawn and the
source cell is cleared. -/
theorem c7_apply_spec_witness :
    ∃ p2 : Piece,
      boardPawnMoved.get_piece pmPawn.move.x pmPawn.move.y = some p2 ∧
      p2.team = Piece.team ⟨'↟', 0⟩ ∧
      (piece_type (Piece.char ⟨'↟', 0⟩) ≠ some 'P' → p2 = ⟨'↟', 0⟩) ∧
      (piece_type (Piece.char ⟨'↟', 0⟩) = some 'P' →
        Piece.dir p2 = MOVE_DIRS_TO_PAWN_DIRS pmPawn.move.dir ∧
        pawn_type p2.char = some 0) ∧
      (¬ (pmPawn.move.x = pmPawn.piece.x ∧ pmPawn.move.y = pmPawn.piece.y) →
        boardPawnMoved.get_piece pmPawn.piece.x pmPawn.piece.y = none) :=
  c7_apply_spec boardPawnMove pmPawn ⟨'↟', 0⟩ boardPawnMoved (by decide) (by decide)

/-- Claim C9, counterexample: `Board.load` silently accepts a document
that violates the schema (wrong sequence lengths and an unknown square
character), building a board verbatim instead of failing. -/
theorem c9_counterexample :
    Board.load docBad = some ⟨2, 2, [some ⟨'#'⟩], [none]⟩ := by
  decide

/-- If every element loads to an image of `g`, the whole list loads and
mapping `g` back recovers it. -/
theorem opt_map_list_roundtrip {α β : Type} (f : α → Option β) (g : β → α) :
    ∀ l : List α, (∀ a ∈ l, ∃ b, f a = some b ∧ g b = a) →
      ∃ bl, opt_map_list f l = some bl ∧ bl.map g = l := by
  intro l
  induction l with
  | nil => intro _; exact ⟨[], rfl, rfl⟩
  | cons a l ih =>
    intro h
    obtain ⟨b, hb, hgb⟩ := h a (List.mem_cons_self a l)
    obtain ⟨bl, hbl, hmap⟩ := ih (fun x hx => h x (List.mem_cons_of_mem a hx))
    refine ⟨b :: bl, ?_, ?_⟩
    · simp [opt_map_list, hb, hbl]
    · simp [hmap, hgb]

/-- If every element loads, the whole list loads. -/
theorem opt_map_list_total {α β : Type} (f : α → Option β) :
    ∀ l : List α, (∀ a ∈ l, ∃ b, f a = some b) →
      ∃ bl, opt_map_list f l = some bl := by
  intro l
  induction l with
  | nil => intro _; exact ⟨[], rfl⟩
  | cons a l ih =>
    intro h
    obtain ⟨b, hb⟩ := h a (List.mem_cons_self a l)
    obtain ⟨bl, hbl⟩ := ih (fun x hx => h x (List.mem_cons_of_mem a hx))
    exact ⟨b :: bl, by simp [opt_map_list, hb, hbl]⟩

/-- Claim C8: loading a schema-conforming document succeeds and dumping
the loaded board reproduces the document, with the same null-versus-list
discipline. -/
theorem c8_round_trip (d : Doc) (h : doc_valid d) :
    ∃ b, Board.load d = some b ∧ b.dump = d := by
  obtain ⟨-, -, -, -, hsq, hpc⟩ := h
  have hsq2 : ∀ a ∈ d.squares, ∃ b, load_square a = some b ∧
      (match b with
        | none => none
        | some s => some [s.char]) = a := by
    intro a ha
    have := hsq a ha
    match a with
    | none => exact ⟨none, rfl, rfl⟩
    | some [c] => exact ⟨some ⟨c⟩, rfl, rfl⟩
    | some [] => exact absurd this (by simp [square_doc_valid])
    | some (_ :: _ :: _) => exact absurd this (by simp [square_doc_valid])
  have hpc2 : ∀ a ∈ d.pieces, ∃ b, load_piece a = some b ∧
      (match b with
        | none => none
        | some p => some [DocAtom.str p.char, DocAtom.int p.team]) = a := by
    intro a ha
    have := hpc a ha
    match a with
    | none => exact ⟨none, rfl, rfl⟩
    | some [DocAtom.str c, DocAtom.int t] => exact ⟨some ⟨c, t⟩, rfl, rfl⟩
    | some [] => exact absurd this (by simp [piece_doc_valid])
    | some [DocAtom.str _] => exact absurd this (by simp [piece_doc_valid])
    | some [DocAtom.int _] => exact absurd this (by simp [piece_doc_valid])
    | some (DocAtom.int _ :: _ :: _) => exact absurd this (by simp [piece_doc_valid])
    | some (DocAtom.str _ :: DocAtom.str _ :: _) => exact absurd this (by simp [piece_doc_valid])
    | some (DocAtom.str _ :: DocAtom.int _ :: _ :: _) =>
      exact absurd this (by simp [piece_doc_valid])
  obtain ⟨sqs, hsqs, hsqmap⟩ := opt_map_list_roundtrip load_square _ d.squares hsq2
  obtain ⟨pcs, hpcs, hpcmap⟩ := opt_map_list_roundtrip load_piece _ d.pieces hpc2
  refine ⟨⟨d.w, d.h, sqs, pcs⟩, ?_, ?_⟩
  · simp [Board.load, hsqs, hpcs]
  · cases d
    simp only [Board.dump] at *
    simp [hsqmap, hpcmap]

/-- Claim C8, witness at `docGood`. -/
theorem c8_round_trip_witness :
    ∃ b, Board.load docGood = some b ∧ b.dump = docGood := by
  refine c8_round_trip docGood ⟨Nat.one_pos, Nat.one_pos, rfl, rfl, ?_, ?_⟩
  · intro s hs
    simp only [docGood, List.mem_singleton] at hs
    subst hs
    show ('.' : Char) ∈ SQUARE_CHARS
    decide
  · intro p hp
    simp only [docGood, List.mem_singleton] at hp
    subst hp
    refine ⟨Or.inl (by decide), by decide, by decide⟩

/-- Claim C9, amended: `Board.load` validates only the constructor arity
of each element; any document whose elements have an acceptable arity
loads successfully (silently accepting wrong-length sequences, unknown
characters and out-of-range teams). -/
theorem c9_load_no_validation_amended (d : Doc)
    (hsq : ∀ s ∈ d.squares, square_doc_arity_ok s)
    (hpc : ∀ p ∈ d.pieces, piece_doc_arity_ok p) :
    ∃ b, Board.load d = some b := by
  have hsq2 : ∀ a ∈ d.squares, ∃ b, load_square a = some b := by
    intro a ha
    have := hsq a ha
    match a with
    | none => exact ⟨none, rfl⟩
    | some [c] => exact ⟨some ⟨c⟩, rfl⟩
    | some [] => exact absurd this (by simp [square_doc_arity_ok])
    | some (_ :: _ :: _) => exact absurd this (by simp [square_doc_arity_ok])
  have hpc2 : ∀ a ∈ d.pieces, ∃ b, load_piece a = some b := by
    intro a ha
    have := hpc a ha
    match a with
    | none => exact ⟨none, rfl⟩
    | some [DocAtom.str c] => exact ⟨some ⟨c, 0⟩, rfl⟩
    | some [DocAtom.str c, DocAtom.int t] => exact ⟨some ⟨c, t⟩, rfl⟩
    | some [] => exact absurd this (by simp [piece_doc_arity_ok])
    | some [DocAtom.int _] => exact absurd this (by simp [piece_doc_arity_ok])
    | some (DocAtom.int _ :: _ :: _) => exact absurd this (by simp [piece_doc_arity_ok])
    | some (DocAtom.str _ :: DocAtom.str _ :: _) =>
      exact absurd this (by simp [piece_doc_arity_ok])
    | some (DocAtom.str _ :: DocAtom.int _ :: _ :: _) =>
      exact absurd this (by simp [piece_doc_arity_ok])
  obtain ⟨sqs, hsqs⟩ := opt_map_list_total load_square d.squares hsq2
  obtain ⟨pcs, hpcs⟩ := opt_map_list_total load_piece d.pieces hpc2
  exact ⟨⟨d.w, d.h, sqs, pcs⟩, by simp [Board.load, hsqs, hpcs]⟩

/-- Claim C6: `copy_for_trying_out_moves` shares the squares array with
the source board, owns a fresh pieces array (a different heap cell, equal
in content at construction, with the source board unchanged), and any
successful `apply` on the copy leaves every cell of the source board —
squares and pieces alike — unchanged. -/
theorem c6_trial_isolation (wld : World) (r : BoardRef)
    (h : r.piecesId < wld.piecesArrs.length) :
    (wld.copy_for_trying_out_moves r).1.squaresId = r.squaresId ∧
    (wld.copy_for_trying_out_moves r).1.piecesId ≠ r.piecesId ∧
    ((wld.copy_for_trying_out_moves r).2).read_board (wld.copy_for_trying_out_moves r).1
      = wld.read_board r ∧
    ((wld.copy_for_trying_out_moves r).2).read_board r = wld.read_board r ∧
    ∀ pm wld2,
      ((wld.copy_for_trying_out_moves r).2).apply_ref (wld.copy_for_trying_out_moves r).1 pm
        = some wld2 →
      wld2.read_board r = wld.read_board r := by
  refine ⟨rfl, by simp [World.copy_for_trying_out_moves]; omega, ?_, ?_, ?_⟩
  · simp only [World.copy_for_trying_out_moves, World.read_board]
    rw [list_getD_concat_length]
  · simp only [World.copy_for_trying_out_moves, World.read_board]
    rw [list_getD_append _ _ _ _ h]
  · intro pm wld2 happ
    simp only [World.apply_ref, Option.map_eq_some'] at happ
    obtain ⟨b2, -, hw2⟩ := happ
    subst hw2
    simp only [World.copy_for_trying_out_moves, World.read_board]
    rw [list_getD_set_ne _ _ _ _ _ (by omega), list_getD_append _ _ _ _ h]

/-- Claim C6, witness: the isolation theorem applied to `worldK`, plus a
concrete `apply` on the trial copy whose result leaves the source board's
cells unchanged. -/
theorem c6_trial_isolation_witness :
    (worldK.copy_for_trying_out_moves refK).1.squaresId = refK.squaresId ∧
    ((worldK.copy_for_trying_out_moves refK).2).apply_ref
        (worldK.copy_for_trying_out_moves refK).1 pmK
      = some ⟨[[some ⟨'.'⟩, some ⟨'.'⟩]],
              [[some ⟨'K', 0⟩, none], [none, some ⟨'K', 0⟩]]⟩ ∧
    World.read_board ⟨[[some ⟨'.'⟩, some ⟨'.'⟩]],
        [[some ⟨'K', 0⟩, none], [none, some ⟨'K', 0⟩]]⟩ refK
      = worldK.read_board refK := by
  refine ⟨(c6_trial_isolation worldK refK (by decide)).1, by decide, ?_⟩
  exact (c6_trial_isolation worldK refK (by decide)).2.2.2.2 pmK _ (by decide)

/-- Claim C9, witness of the amended theorem at the schema-violating
`docBad`. -/
theorem c9_load_no_validation_amended_witness :
    ∃ b, Board.load docBad = some b := by
  refine c9_load_no_validation_amended docBad ?_ ?_
  · intro s hs
    simp only [docBad, List.mem_singleton] at hs
    subst hs
    show (1 : Nat) = 1
    rfl
  · intro p hp
    simp only [docBad, List.mem_singleton] at hp
    subst hp
    trivial

theorem cm_offboard (b : Board) (x0 y0 : Int) (team : Int) (x y : Int) (dir ct : Nat)
    (st : GenSt) (h : b.coords_to_index x y = none) :
    check_move b x0 y0 team x y dir ct st = (none, st) := by
  unfold check_move
  rw [h]

theorem cm_mem (b : Board) (x0 y0 : Int) (team : Int) (x y : Int) (dir ct : Nat)
    (st : GenSt) (i : Nat) (hidx : b.coords_to_index x y = some i)
    (hmem : (⟨x, y, dir⟩ : Move) ∈ st.checked) :
    check_move b x0 y0 team x y dir ct st = (none, st) := by
  unfold check_move
  rw [hidx]
  simp only [if_pos hmem]

theorem cm_new (b : Board) (x0 y0 : Int) (team : Int) (x y : Int) (dir ct : Nat)
    (st : GenSt) (i : Nat) (hidx : b.coords_to_index x y = some i)
    (hmem : (⟨x, y, dir⟩ : Move) ∉ st.checked) :
    check_move b x0 y0 team x y dir ct st =
      (check_move_classify b x0 y0 team x y dir ct i,
       ⟨⟨x, y, dir⟩ :: st.checked,
        match check_move_classify b x0 y0 team x y dir ct i with
        | some ⟨_, none⟩ => st.moves.insert ⟨x, y, dir⟩
        | _ => st.moves⟩) := by
  unfold check_move
  rw [hidx]
  simp only [if_neg hmem]

theorem bounce_dir_lt8 (s : Square) (dir bd : Nat) (h : s.get_bounce_dir dir = some bd) :
    bd < 8 := by
  unfold Square.get_bounce_dir at h
  rw [Option.map_eq_some'] at h
  obtain ⟨pr, hfind, hpr⟩ := h
  have hmem := List.mem_of_find?_eq_some hfind
  have hall : ∀ pr2 ∈ bounce_table s.char, pr2.2 < 8 := by
    unfold bounce_table
    split_ifs <;> decide
  subst hpr
  exact hall pr hmem

theorem take_gate_some (ct : Nat) (wt : Bool) (r : CheckMoveResult)
    (h : take_gate ct wt = some r) : r = ⟨wt, none⟩ := by
  unfold take_gate at h
  split_ifs at h
  exact (Option.some_inj.mp h).symm

theorem classify_some (b : Board) (x0 y0 : Int) (team : Int) (x y : Int)
    (dir ct i : Nat) (r : CheckMoveResult)
    (h : check_move_classify b x0 y0 team x y dir ct i = some r) :
    (∃ bd, r = ⟨false, some bd⟩ ∧ bd < 8) ∨
    (r.bounce_dir = none ∧ b.squares.getD i none = some ⟨'.'⟩ ∧
      ∀ q, b.pieces.getD i none = some q → q.team = team → (x = x0 ∧ y = y0)) := by
  unfold check_move_classify at h
  split at h
  · rename_i bd hbind
    left
    refine ⟨bd, (Option.some_inj.mp h).symm, ?_⟩
    rw [Option.bind_eq_some] at hbind
    obtain ⟨s, -, hbd⟩ := hbind
    exact bounce_dir_lt8 s dir bd hbd
  · rename_i hbind
    right
    split at h
    · exact absurd h (by simp)
    · rename_i sq hsq
      split at h
      · exact absurd h (by simp)
      · rename_i hsolid
        have hsqc : sq = ⟨'.'⟩ := by
          cases sq with
          | mk c =>
            simp [Square.is_solid] at hsolid
            rw [hsolid]
        split at h
        · rename_i hpc
          have hr := take_gate_some _ _ _ h
          refine ⟨by rw [hr], by rw [hsq, hsqc], ?_⟩
          intro q hq
          rw [hpc] at hq
          exact absurd hq (by simp)
        · rename_i p hpc
          split at h
          · rename_i horigin
            have hr := take_gate_some _ _ _ h
            exact ⟨by rw [hr], by rw [hsq, hsqc], fun q hq hteam => horigin⟩
          · rename_i horigin
            split at h
            · exact absurd h (by simp)
            · rename_i hteam
              have hr := take_gate_some _ _ _ h
              refine ⟨by rw [hr], by rw [hsq, hsqc], ?_⟩
              intro q hq hqt
              rw [hpc] at hq
              obtain rfl := Option.some_inj.mp hq
              exact absurd hqt hteam

theorem mem_all_moves (b : Board) (x y : Int) (dir : Nat)
    (hidx : (b.coords_to_index x y).isSome) (hdir : dir < 8) :
    (⟨x, y, dir⟩ : Move) ∈ all_moves b := by
  unfold Board.coords_to_index at hidx
  split at hidx
  · exact absurd hidx (by simp)
  · rename_i hc
    push_neg at hc
    obtain ⟨hx0, hxw, hy0, hyh⟩ := hc
    unfold all_moves
    simp only [List.mem_flatMap, List.mem_map, List.mem_range]
    refine ⟨x.toNat, by omega, y.toNat, by omega, dir, hdir, ?_⟩
    rw [Int.toNat_of_nonneg hx0, Int.toNat_of_nonneg hy0]

theorem checked_cover (b : Board) (checked : List Move) (hnd : checked.Nodup)
    (hsub : ∀ m ∈ checked, m ∈ all_moves b)
    (hlen : (all_moves b).length ≤ checked.length) :
    ∀ m ∈ all_moves b, m ∈ checked := by
  intro m hm
  have h1 : checked.toFinset ⊆ (all_moves b).toFinset := by
    intro a ha
    exact List.mem_toFinset.mpr (hsub a (List.mem_toFinset.mp ha))
  have h2 : checked.toFinset.card = checked.length := List.toFinset_card_of_nodup hnd
  have h3 : (all_moves b).toFinset.card ≤ (all_moves b).length := List.toFinset_card_le _
  have heq : checked.toFinset = (all_moves b).toFinset :=
    Finset.eq_of_subset_of_card_le h1 (by omega)
  rw [← List.mem_toFinset, ← heq, List.mem_toFinset] at hm
  exact hm

theorem cm_inv (b : Board) (x0 y0 : Int) (team : Int) (x y : Int) (dir ct : Nat)
    (st : GenSt) (hdir : dir < 8) (hinv : gen_inv b st) :
    gen_inv b (check_move b x0 y0 team x y dir ct st).2 := by
  cases hidx : b.coords_to_index x y with
  | none => rw [cm_offboard b x0 y0 team x y dir ct st hidx]; exact hinv
  | some i =>
    by_cases hmem : (⟨x, y, dir⟩ : Move) ∈ st.checked
    · rw [cm_mem b x0 y0 team x y dir ct st i hidx hmem]; exact hinv
    · rw [cm_new b x0 y0 team x y dir ct st i hidx hmem]
      refine ⟨List.nodup_cons.mpr ⟨hmem, hinv.1⟩, ?_⟩
      intro m hm
      rcases List.mem_cons.mp hm with rfl | hm2
      · exact mem_all_moves b x y dir (by rw [hidx]; rfl) hdir
      · exact hinv.2 m hm2

theorem cm_eq_some (b : Board) (x0 y0 : Int) (team : Int) (x y : Int) (dir ct : Nat)
    (st : GenSt) (r : CheckMoveResult) (st2 : GenSt)
    (hcm : check_move b x0 y0 team x y dir ct st = (some r, st2)) :
    ∃ i, b.coords_to_index x y = some i ∧
      (⟨x, y, dir⟩ : Move) ∉ st.checked ∧
      check_move_classify b x0 y0 team x y dir ct i = some r ∧
      st2.checked = ⟨x, y, dir⟩ :: st.checked ∧
      (st2.moves = st.moves ∨ st2.moves = st.moves.insert ⟨x, y, dir⟩) := by
  cases hidx : b.coords_to_index x y with
  | none =>
    rw [cm_offboard b x0 y0 team x y dir ct st hidx] at hcm
    exact absurd (congrArg Prod.fst hcm) (by simp)
  | some i =>
    by_cases hmem : (⟨x, y, dir⟩ : Move) ∈ st.checked
    · rw [cm_mem b x0 y0 team x y dir ct st i hidx hmem] at hcm
      exact absurd (congrArg Prod.fst hcm) (by simp)
    · rw [cm_new b x0 y0 team x y dir ct st i hidx hmem] at hcm
      have hres := congrArg Prod.fst hcm
      have hst := congrArg Prod.snd hcm
      simp only at hres hst
      refine ⟨i, rfl, hmem, by rw [hres], by rw [← hst], ?_⟩
      rw [← hst]
      obtain ⟨wt, bd⟩ := r
      cases bd with
      | none => right; rw [hres]
      | some bdv => left; rw [hres]

theorem cm_moves_ok (b : Board) (x0 y0 : Int) (team : Int) (x y : Int) (dir ct : Nat)
    (st : GenSt) (h : moves_ok b x0 y0 team st) :
    moves_ok b x0 y0 team (check_move b x0 y0 team x y dir ct st).2 := by
  cases hidx : b.coords_to_index x y with
  | none => rw [cm_offboard b x0 y0 team x y dir ct st hidx]; exact h
  | some i =>
    by_cases hmem : (⟨x, y, dir⟩ : Move) ∈ st.checked
    · rw [cm_mem b x0 y0 team x y dir ct st i hidx hmem]; exact h
    · rw [cm_new b x0 y0 team x y dir ct st i hidx hmem]
      cases hcl : check_move_classify b x0 y0 team x y dir ct i with
      | none => exact h
      | some r =>
        obtain ⟨wt, bd⟩ := r
        cases bd with
        | some bdv => exact h
        | none =>
          intro m hm
          simp only [List.mem_insert_iff] at hm
          rcases hm with rfl | hm2
          · rcases classify_some b x0 y0 team x y dir ct i _ hcl with ⟨bd2, habs, -⟩ | hok
            · exact absurd (congrArg CheckMoveResult.bounce_dir habs) (by simp)
            · obtain ⟨-, hsq, hpc⟩ := hok
              refine ⟨by rw [hidx]; rfl, ?_, ?_⟩
              · unfold Board.get_square
                rw [hidx, Option.some_bind, hsq]
              · intro q hq
                unfold Board.get_piece at hq
                rw [hidx, Option.some_bind] at hq
                exact hpc q hq
          · exact h m hm2

theorem loop_inv (b : Board) (x0 y0 : Int) (team : Int) (ct : Nat) (maxm : Option Nat) :
    ∀ (fuel : Nat) (x y : Int) (dir : Nat) (addx addy : Int) (n : Nat) (st : GenSt),
      dir < 8 → gen_inv b st →
      gen_inv b (check_line_loop b x0 y0 team ct maxm fuel x y dir addx addy n st) := by
  intro fuel
  induction fuel with
  | zero => intro x y dir addx addy n st _ hinv; exact hinv
  | succ f ih =>
    intro x y dir addx addy n st hdir hinv
    rw [check_line_loop]
    cases hcm : check_move b x0 y0 team x y dir ct st with
    | mk res st2 =>
      have hinv2 : gen_inv b st2 := by
        have h2 := cm_inv b x0 y0 team x y dir ct st hdir hinv
        rw [hcm] at h2
        exact h2
      cases res with
      | none => exact hinv2
      | some r =>
        obtain ⟨wt, bd⟩ := r
        by_cases hwt : wt = true
        · subst hwt
          simp only [if_pos rfl]
          exact hinv2
        · have hwtf : wt = false := by revert hwt; cases wt <;> simp
          subst hwtf
          simp only [Bool.false_eq_true, if_neg, ite_false]
          cases bd with
          | none =>
            by_cases hmax : max_reached maxm (n + 1) = true
            · simp only [hmax, if_pos rfl]
              exact hinv2
            · simp only [hmax]
              simp only [Bool.false_eq_true, if_neg, ite_false]
              exact ih _ _ _ _ _ _ _ hdir hinv2
          | some bdv =>
            have hbdv : bdv < 8 := by
              obtain ⟨i, -, -, hcl, -, -⟩ := cm_eq_some b x0 y0 team x y dir ct st _ st2 hcm
              rcases classify_some b x0 y0 team x y dir ct i _ hcl with ⟨bd2, hpair, hlt⟩ | ⟨hnone, -⟩
              · cases hpair
                exact hlt
              · exact absurd hnone (by simp)
            by_cases hmax : max_reached maxm n = true
            · simp only [hmax, if_pos rfl]
              exact hinv2
            · simp only [hmax]
              simp only [Bool.false_eq_true, if_neg, ite_false]
              exact ih _ _ _ _ _ _ _ hbdv hinv2

theorem loop_moves_ok (b : Board) (x0 y0 : Int) (team : Int) (ct : Nat) (maxm : Option Nat) :
    ∀ (fuel : Nat) (x y : Int) (dir : Nat) (addx addy : Int) (n : Nat) (st : GenSt),
      moves_ok b x0 y0 team st →
      moves_ok b x0 y0 team (check_line_loop b x0 y0 team ct maxm fuel x y dir addx addy n st) := by
  intro fuel
  induction fuel with
  | zero => intro x y dir addx addy n st hmo; exact hmo
  | succ f ih =>
    intro x y dir addx addy n st hmo
    rw [check_line_loop]
    cases hcm : check_move b x0 y0 team x y dir ct st with
    | mk res st2 =>
      have hmo2 : moves_ok b x0 y0 team st2 := by
        have h2 := cm_moves_ok b x0 y0 team x y dir ct st hmo
        rw [hcm] at h2
        exact h2
      cases res with
      | none => exact hmo2
      | some r =>
        obtain ⟨wt, bd⟩ := r
        by_cases hwt : wt = true
        · subst hwt
          simp only [if_pos rfl]
          exact hmo2
        · have hwtf : wt = false := by revert hwt; cases wt <;> simp
          subst hwtf
          simp only [Bool.false_eq_true, if_neg, ite_false]
          cases bd with
          | none =>
            by_cases hmax : max_reached maxm (n + 1) = true
            · simp only [hmax, if_pos rfl]
              exact hmo2
            · simp only [hmax]
              simp only [Bool.false_eq_true, if_neg, ite_false]
              exact ih _ _ _ _ _ _ _ hmo2
          | some bdv =>
            by_cases hmax : max_reached maxm n = true
            · simp only [hmax, if_pos rfl]
              exact hmo2
            · simp only [hmax]
              simp only [Bool.false_eq_true, if_neg, ite_false]
              exact ih _ _ _ _ _ _ _ hmo2

theorem loop_succ_eq (b : Board) (x0 y0 : Int) (team : Int) (ct : Nat) (maxm : Option Nat) :
    ∀ (fuel : Nat) (x y : Int) (dir : Nat) (addx addy : Int) (n : Nat) (st : GenSt),
      dir < 8 → gen_inv b st →
      (all_moves b).length ≤ fuel + st.checked.length →
      check_line_loop b x0 y0 team ct maxm (fuel + 1) x y dir addx addy n st =
      check_line_loop b x0 y0 team ct maxm fuel x y dir addx addy n st := by
  intro fuel
  induction fuel with
  | zero =>
    intro x y dir addx addy n st hdir hinv hlen
    conv_lhs => rw [check_line_loop]
    cases hidx : b.coords_to_index x y with
    | none =>
      rw [cm_offboard b x0 y0 team x y dir ct st hidx]
      rfl
    | some i =>
      have hmem : (⟨x, y, dir⟩ : Move) ∈ st.checked :=
        checked_cover b st.checked hinv.1 hinv.2 (by omega) _
          (mem_all_moves b x y dir (by rw [hidx]; rfl) hdir)
      rw [cm_mem b x0 y0 team x y dir ct st i hidx hmem]
      rfl
  | succ f ih =>
    intro x y dir addx addy n st hdir hinv hlen
    conv_lhs => rw [check_line_loop]
    conv_rhs => rw [check_line_loop]
    cases hcm : check_move b x0 y0 team x y dir ct st with
    | mk res st2 =>
      cases res with
      | none => rfl
      | some r =>
        have hgrow : st2.checked = ⟨x, y, dir⟩ :: st.checked ∧
            (⟨x, y, dir⟩ : Move) ∉ st.checked := by
          obtain ⟨i, -, hmem, -, hch, -⟩ := cm_eq_some b x0 y0 team x y dir ct st r st2 hcm
          exact ⟨hch, hmem⟩
        have hinv2 : gen_inv b st2 := by
          have h2 := cm_inv b x0 y0 team x y dir ct st hdir hinv
          rw [hcm] at h2
          exact h2
        have hlen2 : (all_moves b).length ≤ f + st2.checked.length := by
          rw [hgrow.1]
          simp only [List.length_cons]
          omega
        obtain ⟨wt, bd⟩ := r
        by_cases hwt : wt = true
        · subst hwt
          simp
        · have hwtf : wt = false := by revert hwt; cases wt <;> simp
          subst hwtf
          simp only [Bool.false_eq_true, if_neg, ite_false]
          cases bd with
          | none =>
            by_cases hmax : max_reached maxm (n + 1) = true
            · simp [hmax]
            · simp only [hmax]
              simp only [Bool.false_eq_true, if_neg, ite_false]
              exact ih _ _ _ _ _ _ _ hdir hinv2 hlen2
          | some bdv =>
            have hbdv : bdv < 8 := by
              obtain ⟨i, -, -, hcl, -, -⟩ := cm_eq_some b x0 y0 team x y dir ct st _ st2 hcm
              rcases classify_some b x0 y0 team x y dir ct i _ hcl with ⟨bd2, hpair, hlt⟩ | ⟨hnone, -⟩
              · cases hpair
                exact hlt
              · exact absurd hnone (by simp)
            by_cases hmax : max_reached maxm n = true
            · simp [hmax]
            · simp only [hmax]
              simp only [Bool.false_eq_true, if_neg, ite_false]
              exact ih _ _ _ _ _ _ _ hbdv hinv2 hlen2

theorem loop_stable (b : Board) (x0 y0 : Int) (team : Int) (ct : Nat) (maxm : Option Nat)
    (x y : Int) (dir : Nat) (addx addy : Int) (n : Nat) (st : GenSt)
    (hdir : dir < 8) (hinv : gen_inv b st) :
    ∀ f, (all_moves b).length ≤ f →
      check_line_loop b x0 y0 team ct maxm f x y dir addx addy n st =
      check_line_loop b x0 y0 team ct maxm (all_moves b).length x y dir addx addy n st := by
  intro f hf
  induction f, hf using Nat.le_induction with
  | base => rfl
  | succ f hf ih =>
    rw [loop_succ_eq b x0 y0 team ct maxm f x y dir addx addy n st hdir hinv (by omega)]
    exact ih

theorem list_length_flatMap {α β : Type} (l : List α) (f : α → List β) :
    (l.flatMap f).length = (l.map (fun a => (f a).length)).sum := by
  induction l with
  | nil => rfl
  | cons a l ih => simp [List.flatMap_cons, ih]

theorem length_all_moves (b : Board) : (all_moves b).length = 8 * b.w * b.h := by
  unfold all_moves
  rw [list_length_flatMap]
  have hinner : ∀ x : Nat,
      ((List.range b.h).flatMap (fun y =>
        (List.range 8).map (fun d => (⟨(x : Int), (y : Int), d⟩ : Move)))).length = b.h * 8 := by
    intro x
    rw [list_length_flatMap]
    simp [List.map_const']
  simp only [hinner]
  simp [List.map_const']
  ring

theorem move_dir_lt8 (p : Piece) (F : Nat) (h : p.move_dir = some F) : F < 8 := by
  unfold Piece.move_dir at h
  rw [Option.bind_eq_some] at h
  obtain ⟨d, -, hd⟩ := h
  split_ifs at hd <;> (rw [Option.some_inj] at hd; omega)

theorem line_inv (b : Board) (x0 y0 : Int) (team : Int) (f : Nat) (dir : Nat)
    (maxm : Option Nat) (ct : Nat) (st : GenSt) (hdir : dir < 8) (hinv : gen_inv b st) :
    gen_inv b (check_line b x0 y0 team f dir maxm ct st) := by
  unfold check_line
  exact loop_inv b x0 y0 team ct maxm f _ _ dir _ _ 0 st hdir hinv

theorem line_moves_ok (b : Board) (x0 y0 : Int) (team : Int) (f : Nat) (dir : Nat)
    (maxm : Option Nat) (ct : Nat) (st : GenSt) (hmo : moves_ok b x0 y0 team st) :
    moves_ok b x0 y0 team (check_line b x0 y0 team f dir maxm ct st) := by
  unfold check_line
  exact loop_moves_ok b x0 y0 team ct maxm f _ _ dir _ _ 0 st hmo

theorem line_stable (b : Board) (x0 y0 : Int) (team : Int) (dir : Nat)
    (maxm : Option Nat) (ct : Nat) (st : GenSt) (hdir : dir < 8) (hinv : gen_inv b st)
    (f : Nat) (hf : (all_moves b).length ≤ f) :
    check_line b x0 y0 team f dir maxm ct st =
      check_line b x0 y0 team (all_moves b).length dir maxm ct st := by
  unfold check_line
  exact loop_stable b x0 y0 team ct maxm _ _ dir _ _ 0 st hdir hinv f hf

theorem check_lines_inv (b : Board) (x0 y0 : Int) (team : Int) (f : Nat)
    (maxm : Option Nat) (ct : Nat) :
    ∀ (ds : List Nat) (st : GenSt), (∀ d ∈ ds, d < 8) → gen_inv b st →
      gen_inv b (check_lines b x0 y0 team f maxm ct ds st) := by
  intro ds
  induction ds with
  | nil => intro st _ hinv; exact hinv
  | cons d ds ih =>
    intro st hds hinv
    rw [check_lines]
    exact ih _ (fun e he => hds e (List.mem_cons_of_mem d he))
      (line_inv b x0 y0 team f d maxm ct st (hds d (List.mem_cons_self d ds)) hinv)

theorem check_lines_moves_ok (b : Board) (x0 y0 : Int) (team : Int) (f : Nat)
    (maxm : Option Nat) (ct : Nat) :
    ∀ (ds : List Nat) (st : GenSt), moves_ok b x0 y0 team st →
      moves_ok b x0 y0 team (check_lines b x0 y0 team f maxm ct ds st) := by
  intro ds
  induction ds with
  | nil => intro st hmo; exact hmo
  | cons d ds ih =>
    intro st hmo
    rw [check_lines]
    exact ih _ (line_moves_ok b x0 y0 team f d maxm ct st hmo)

theorem check_lines_stable (b : Board) (x0 y0 : Int) (team : Int)
    (maxm : Option Nat) (ct : Nat) (f : Nat) (hf : (all_moves b).length ≤ f) :
    ∀ (ds : List Nat) (st : GenSt), (∀ d ∈ ds, d < 8) → gen_inv b st →
      check_lines b x0 y0 team f maxm ct ds st =
        check_lines b x0 y0 team (all_moves b).length maxm ct ds st := by
  intro ds
  induction ds with
  | nil => intro st _ _; rfl
  | cons d ds ih =>
    intro st hds hinv
    rw [check_lines, check_lines]
    rw [line_stable b x0 y0 team d maxm ct st (hds d (List.mem_cons_self d ds)) hinv f hf]
    exact ih _ (fun e he => hds e (List.mem_cons_of_mem d he))
      (line_inv b x0 y0 team (all_moves b).length d maxm ct st
        (hds d (List.mem_cons_self d ds)) hinv)

theorem cm_checked_sub (b : Board) (x0 y0 : Int) (team : Int) (x y : Int) (dir ct : Nat)
    (st : GenSt) :
    ∀ m ∈ (check_move b x0 y0 team x y dir ct st).2.checked,
      m = ⟨x, y, dir⟩ ∨ m ∈ st.checked := by
  intro m hm
  cases hidx : b.coords_to_index x y with
  | none =>
    rw [cm_offboard b x0 y0 team x y dir ct st hidx] at hm
    exact Or.inr hm
  | some i =>
    by_cases hmem : (⟨x, y, dir⟩ : Move) ∈ st.checked
    · rw [cm_mem b x0 y0 team x y dir ct st i hidx hmem] at hm
      exact Or.inr hm
    · rw [cm_new b x0 y0 team x y dir ct st i hidx hmem] at hm
      exact List.mem_cons.mp hm

theorem cm_moves_sub (b : Board) (x0 y0 : Int) (team : Int) (x y : Int) (dir ct : Nat)
    (st : GenSt) :
    ∀ m ∈ (check_move b x0 y0 team x y dir ct st).2.moves,
      m = ⟨x, y, dir⟩ ∨ m ∈ st.moves := by
  intro m hm
  cases hidx : b.coords_to_index x y with
  | none =>
    rw [cm_offboard b x0 y0 team x y dir ct st hidx] at hm
    exact Or.inr hm
  | some i =>
    by_cases hmem : (⟨x, y, dir⟩ : Move) ∈ st.checked
    · rw [cm_mem b x0 y0 team x y dir ct st i hidx hmem] at hm
      exact Or.inr hm
    · rw [cm_new b x0 y0 team x y dir ct st i hidx hmem] at hm
      cases hcl : check_move_classify b x0 y0 team x y dir ct i with
      | none =>
        rw [hcl] at hm
        exact Or.inr hm
      | some r =>
        obtain ⟨wt, bd⟩ := r
        cases bd with
        | some bdv =>
          rw [hcl] at hm
          exact Or.inr hm
        | none =>
          rw [hcl] at hm
          simp only [List.mem_insert_iff] at hm
          exact hm

theorem cmat_inv (b : Board) (x0 y0 : Int) (team : Int) (ct : Nat) :
    ∀ (ms : List Move) (st : GenSt), (∀ m ∈ ms, m.dir < 8) → gen_inv b st →
      gen_inv b (check_moves_at b x0 y0 team ct ms st) := by
  intro ms
  induction ms with
  | nil => intro st _ hinv; exact hinv
  | cons m ms ih =>
    intro st hms hinv
    rw [check_moves_at]
    exact ih _ (fun e he => hms e (List.mem_cons_of_mem m he))
      (cm_inv b x0 y0 team m.x m.y m.dir ct st (hms m (List.mem_cons_self m ms)) hinv)

theorem cmat_moves_ok (b : Board) (x0 y0 : Int) (team : Int) (ct : Nat) :
    ∀ (ms : List Move) (st : GenSt), moves_ok b x0 y0 team st →
      moves_ok b x0 y0 team (check_moves_at b x0 y0 team ct ms st) := by
  intro ms
  induction ms with
  | nil => intro st hmo; exact hmo
  | cons m ms ih =>
    intro st hmo
    rw [check_moves_at]
    exact ih _ (cm_moves_ok b x0 y0 team m.x m.y m.dir ct st hmo)

theorem cmat_checked_sub (b : Board) (x0 y0 : Int) (team : Int) (ct : Nat) :
    ∀ (ms : List Move) (st : GenSt) (m2 : Move),
      m2 ∈ (check_moves_at b x0 y0 team ct ms st).checked →
      m2 ∈ ms ∨ m2 ∈ st.checked := by
  intro ms
  induction ms with
  | nil => intro st m2 hm; exact Or.inr hm
  | cons m ms ih =>
    intro st m2 hm
    rw [check_moves_at] at hm
    rcases ih _ m2 hm with hms | hst2
    · exact Or.inl (List.mem_cons_of_mem m hms)
    · rcases cm_checked_sub b x0 y0 team m.x m.y m.dir ct st m2 hst2 with rfl | hst
      · exact Or.inl (by simp)
      · exact Or.inr hst

theorem cmat_moves_sub (b : Board) (x0 y0 : Int) (team : Int) (ct : Nat) :
    ∀ (ms : List Move) (st : GenSt) (m2 : Move),
      m2 ∈ (check_moves_at b x0 y0 team ct ms st).moves →
      m2 ∈ ms ∨ m2 ∈ st.moves := by
  intro ms
  induction ms with
  | nil => intro st m2 hm; exact Or.inr hm
  | cons m ms ih =>
    intro st m2 hm
    rw [check_moves_at] at hm
    rcases ih _ m2 hm with hms | hst2
    · exact Or.inl (List.mem_cons_of_mem m hms)
    · rcases cm_moves_sub b x0 y0 team m.x m.y m.dir ct st m2 hst2 with rfl | hst
      · exact Or.inl (by simp)
      · exact Or.inr hst

theorem knight_cands_dirs (x y : Int) : ∀ m ∈ knight_cands x y, m.dir < 8 := by
  intro m hm
  simp only [knight_cands, List.mem_cons, List.not_mem_nil, or_false] at hm
  rcases hm with rfl | rfl | rfl | rfl | rfl | rfl | rfl | rfl <;> norm_num

theorem pawn_diag_cands_dirs (x y : Int) (F : Nat) (hF : F < 8) :
    ∀ m ∈ pawn_diag_cands x y F, m.dir < 8 := by
  intro m hm
  simp only [pawn_diag_cands, List.mem_cons, List.not_mem_nil, or_false] at hm
  rcases hm with rfl | rfl <;> exact hF

theorem gen_inv_empty (b : Board) : gen_inv b ⟨[], []⟩ := by
  refine ⟨List.nodup_nil, ?_⟩
  intro m hm
  simp at hm

theorem moves_ok_empty (b : Board) (x0 y0 : Int) (team : Int) :
    moves_ok b x0 y0 team ⟨[], []⟩ := by
  intro m hm
  simp [GenSt.moves] at hm

theorem gms_inv (b : Board) (x y : Int) :
    ∀ (f : Nat) (st : GenSt), get_moves_st_fuel b x y f = some st → gen_inv b st := by
  intro f st h
  unfold get_moves_st_fuel at h
  cases hp : b.get_piece x y with
  | none => rw [hp] at h; exact absurd h (by simp)
  | some p =>
    rw [hp] at h
    simp only [Option.some_bind] at h
    cases ht : piece_type p.char with
    | none => rw [ht] at h; exact absurd h (by simp)
    | some t =>
      rw [ht] at h
      simp only [Option.some_bind] at h
      split_ifs at h with hK hQ hR hB hN hP
      · obtain rfl := (Option.some_inj.mp h).symm
        exact check_lines_inv b x y p.team f (some 1) CAN_TAKE _ _ (by decide) (gen_inv_empty b)
      · obtain rfl := (Option.some_inj.mp h).symm
        exact check_lines_inv b x y p.team f none CAN_TAKE _ _ (by decide) (gen_inv_empty b)
      · obtain rfl := (Option.some_inj.mp h).symm
        exact check_lines_inv b x y p.team f none CAN_TAKE _ _ (by decide) (gen_inv_empty b)
      · obtain rfl := (Option.some_inj.mp h).symm
        exact check_lines_inv b x y p.team f none CAN_TAKE _ _ (by decide) (gen_inv_empty b)
      · obtain rfl := (Option.some_inj.mp h).symm
        exact cmat_inv b x y p.team CAN_TAKE _ _ (knight_cands_dirs x y) (gen_inv_empty b)
      · cases hmd : p.move_dir with
        | none => rw [hmd] at h; exact absurd h (by simp)
        | some F =>
          rw [hmd] at h
          simp only [Option.some_bind] at h
          cases hpt : pawn_type p.char with
          | none => rw [hpt] at h; exact absurd h (by simp)
          | some pt =>
            rw [hpt] at h
            simp only [Option.some_bind] at h
            obtain rfl := (Option.some_inj.mp h).symm
            have hF8 : F < 8 := move_dir_lt8 p F hmd
            exact line_inv b x y p.team f F (some (1 + pt)) CANNOT_TAKE _ hF8
              (cmat_inv b x y p.team MUST_TAKE _ _ (pawn_diag_cands_dirs x y F hF8)
                (gen_inv_empty b))
      · obtain rfl := (Option.some_inj.mp h).symm
        exact gen_inv_empty b

theorem gms_moves_ok (b : Board) (x y : Int) (p : Piece) (hp : b.get_piece x y = some p) :
    ∀ (f : Nat) (st : GenSt), get_moves_st_fuel b x y f = some st →
      moves_ok b x y p.team st := by
  intro f st h
  unfold get_moves_st_fuel at h
  rw [hp] at h
  simp only [Option.some_bind] at h
  cases ht : piece_type p.char with
  | none => rw [ht] at h; exact absurd h (by simp)
  | some t =>
    rw [ht] at h
    simp only [Option.some_bind] at h
    split_ifs at h with hK hQ hR hB hN hP
    · obtain rfl := (Option.some_inj.mp h).symm
      exact check_lines_moves_ok b x y p.team f (some 1) CAN_TAKE _ _ (moves_ok_empty b x y p.team)
    · obtain rfl := (Option.some_inj.mp h).symm
      exact check_lines_moves_ok b x y p.team f none CAN_TAKE _ _ (moves_ok_empty b x y p.team)
    · obtain rfl := (Option.some_inj.mp h).symm
      exact check_lines_moves_ok b x y p.team f none CAN_TAKE _ _ (moves_ok_empty b x y p.team)
    · obtain rfl := (Option.some_inj.mp h).symm
      exact check_lines_moves_ok b x y p.team f none CAN_TAKE _ _ (moves_ok_empty b x y p.team)
    · obtain rfl := (Option.some_inj.mp h).symm
      exact cmat_moves_ok b x y p.team CAN_TAKE _ _ (moves_ok_empty b x y p.team)
    · cases hmd : p.move_dir with
      | none => rw [hmd] at h; exact absurd h (by simp)
      | some F =>
        rw [hmd] at h
        simp only [Option.some_bind] at h
        cases hpt : pawn_type p.char with
        | none => rw [hpt] at h; exact absurd h (by simp)
        | some pt =>
          rw [hpt] at h
          simp only [Option.some_bind] at h
          obtain rfl := (Option.some_inj.mp h).symm
          exact line_moves_ok b x y p.team f F (some (1 + pt)) CANNOT_TAKE _
            (cmat_moves_ok b x y p.team MUST_TAKE _ _ (moves_ok_empty b x y p.team))
    · obtain rfl := (Option.some_inj.mp h).symm
      exact moves_ok_empty b x y p.team

theorem gms_stable (b : Board) (x y : Int) (f : Nat) (hf : (all_moves b).length ≤ f) :
    get_moves_st_fuel b x y f = get_moves_st_fuel b x y (all_moves b).length := by
  unfold get_moves_st_fuel
  cases hp : b.get_piece x y with
  | none => rfl
  | some p =>
    simp only [Option.some_bind]
    cases ht : piece_type p.char with
    | none => rfl
    | some t =>
      simp only [Option.some_bind]
      split_ifs with hK hQ hR hB hN hP
      · rw [check_lines_stable b x y p.team (some 1) CAN_TAKE f hf _ _ (by decide)
          (gen_inv_empty b)]
      · rw [check_lines_stable b x y p.team none CAN_TAKE f hf _ _ (by decide)
          (gen_inv_empty b)]
      · rw [check_lines_stable b x y p.team none CAN_TAKE f hf _ _ (by decide)
          (gen_inv_empty b)]
      · rw [check_lines_stable b x y p.team none CAN_TAKE f hf _ _ (by decide)
          (gen_inv_empty b)]
      · rfl
      · cases hmd : p.move_dir with
        | none => rfl
        | some F =>
          simp only [Option.some_bind]
          cases hpt : pawn_type p.char with
          | none => rfl
          | some pt =>
            simp only [Option.some_bind]
            have hF8 : F < 8 := move_dir_lt8 p F hmd
            rw [line_stable b x y p.team F (some (1 + pt)) CANNOT_TAKE _ hF8
              (cmat_inv b x y p.team MUST_TAKE _ _ (pawn_diag_cands_dirs x y F hF8)
                (gen_inv_empty b)) f hf]
      · rfl

/-- Claim C2, amended: every generated move has an in-range destination
whose square is present and `Normal`, and any same-team piece at the
destination is the moving piece itself — the destination can equal the
origin when bouncers return the ray to its start, which is the one
correction to the claim. -/
theorem c2_move_legality_amended (b : Board) (x y : Int) (p : Piece) (ms : List Move)
    (hp : b.get_piece x y = some p) (hms : b.get_moves x y = some ms) :
    ∀ m ∈ ms, (b.coords_to_index m.x m.y).isSome ∧
      b.get_square m.x m.y = some ⟨'.'⟩ ∧
      ∀ q, b.get_piece m.x m.y = some q → q.team = p.team → (m.x = x ∧ m.y = y) := by
  intro m hm
  unfold Board.get_moves at hms
  rw [Option.map_eq_some'] at hms
  obtain ⟨st, hst, hmoves⟩ := hms
  subst hmoves
  exact gms_moves_ok b x y p hp (8 * b.w * b.h) st hst m hm

/-- Claim C2, witness at `boardRookBounce`: its one generated move
satisfies the amended legality facts, with the same-team clause realised
by destination = origin. -/
theorem c2_move_legality_amended_witness :
    (boardRookBounce.coords_to_index 0 0).isSome ∧
    boardRookBounce.get_square 0 0 = some ⟨'.'⟩ ∧
    ((0 : Int) = 0 ∧ (0 : Int) = 0) :=
  ⟨(c2_move_legality_amended boardRookBounce 0 0 ⟨'R', 0⟩ [⟨0, 0, 6⟩] (by decide) (by decide)
      ⟨0, 0, 6⟩ (by decide)).1,
   (c2_move_legality_amended boardRookBounce 0 0 ⟨'R', 0⟩ [⟨0, 0, 6⟩] (by decide) (by decide)
      ⟨0, 0, 6⟩ (by decide)).2.1,
   (c2_move_legality_amended boardRookBounce 0 0 ⟨'R', 0⟩ [⟨0, 0, 6⟩] (by decide) (by decide)
      ⟨0, 0, 6⟩ (by decide)).2.2 ⟨'R', 0⟩ (by decide) rfl⟩

/-- Claim C3, amended: a pawn's generation is exactly the two direct
diagonal checks at the squares offset by directions `(F+7) % 8` and
`(F+1) % 8` — each checked as a move with move-direction `F` itself (not
`(F-1) mod 8` / `(F+1) mod 8` as the claim stated) under capture policy
`Must` — followed by the forward walk in direction `F` with
`max_moves = 1 + pawn_type` (2 when long-range, else 1) under `Never`;
bounces inside `check_line` redirect the walk without incrementing the
step count `n_moves`. -/
theorem c3_pawn_generation_amended (b : Board) (x y : Int) (p : Piece)
    (hp : b.get_piece x y = some p) (hP : piece_type p.char = some 'P')
    (F : Nat) (hF : p.move_dir = some F) (pt : Nat) (hpt : pawn_type p.char = some pt) :
    b.get_moves_st x y =
      some (check_line b x y p.team (8 * b.w * b.h) F (some (1 + pt)) CANNOT_TAKE
        (pawn_diag_state b x y p.team F)) := by
  unfold Board.get_moves_st get_moves_st_fuel
  rw [hp]
  simp only [Option.some_bind]
  rw [hP]
  simp only [Option.some_bind]
  rw [if_neg (by decide), if_neg (by decide), if_neg (by decide), if_neg (by decide),
    if_neg (by decide)]
  simp only [if_true]
  rw [hF]
  simp only [Option.some_bind]
  rw [hpt]
  simp only [Option.some_bind]
  rfl

/-- Claim C3, witness at `boardPawnDiag`'s north-facing pawn. -/
theorem c3_pawn_generation_amended_witness :
    boardPawnDiag.get_moves_st 0 1 =
      some (check_line boardPawnDiag 0 1 (Piece.team ⟨'↑', 0⟩) (8 * boardPawnDiag.w * boardPawnDiag.h)
        0 (some (1 + 0)) CANNOT_TAKE (pawn_diag_state boardPawnDiag 0 1 (Piece.team ⟨'↑', 0⟩) 0)) :=
  c3_pawn_generation_amended boardPawnDiag 0 1 ⟨'↑', 0⟩ (by decide) (by decide) 0 (by decide)
    0 (by decide)

/-- Claim C4: move generation terminates — any fuel of at least
`8 * w * h` (the number of possible (x, y, dir) triples) produces the
same, final generation state, so the fuel-indexed computation has
stabilised and the returned move list is finite — and the `visited`
(`checked`) set never holds a duplicate (x, y, dir) triple. -/
theorem c4_termination_and_visited_nodup (b : Board) (x y : Int) (p : Piece)
    (_hp : b.get_piece x y = some p) :
    (∀ f, 8 * b.w * b.h ≤ f → get_moves_st_fuel b x y f = b.get_moves_st x y) ∧
    (∀ f st, get_moves_st_fuel b x y f = some st → st.checked.Nodup) := by
  constructor
  · intro f hf
    unfold Board.get_moves_st
    rw [gms_stable b x y f (by rw [length_all_moves]; exact hf),
      gms_stable b x y (8 * b.w * b.h) (by rw [length_all_moves])]
  · intro f st h
    exact (gms_inv b x y f st h).1

/-- Claim C4, witness at `boardTall` with fuel 17 ≥ 8·1·2. -/
theorem c4_termination_and_visited_nodup_witness :
    get_moves_st_fuel boardTall 0 0 17 = boardTall.get_moves_st 0 0 ∧
    List.Nodup (GenSt.checked ⟨[⟨0, 1, 4⟩], [⟨0, 1, 4⟩]⟩) :=
  ⟨(c4_termination_and_visited_nodup boardTall 0 0 ⟨'K', 0⟩ (by decide)).1 17 (by decide),
   (c4_termination_and_visited_nodup boardTall 0 0 ⟨'K', 0⟩ (by decide)).2 17
     ⟨[⟨0, 1, 4⟩], [⟨0, 1, 4⟩]⟩ (by decide)⟩

/-- Claim C10: squares examined directly rather than through the ray
walker discard bounce results.  For a knight the entire `checked` set
stays within the eight L-shaped candidates (no reflected continuation is
ever examined) and every generated move is one of them with a `Normal`
(non-bouncer) destination; for a pawn the diagonal-capture phase examines
only its two candidate squares and contributes only moves among them,
again with `Normal` destinations. -/
theorem c10_direct_checks_discard_bounce (b : Board) (x y : Int) (p : Piece) (st : GenSt)
    (hp : b.get_piece x y = some p) (hst : b.get_moves_st x y = some st) :
    (piece_type p.char = some 'N' →
      (∀ m ∈ st.checked, m ∈ knight_cands x y) ∧
      ∀ m ∈ st.moves, m ∈ knight_cands x y ∧ b.get_square m.x m.y = some ⟨'.'⟩) ∧
    (∀ F, piece_type p.char = some 'P' → p.move_dir = some F →
      (∀ m ∈ (pawn_diag_state b x y p.team F).checked, m ∈ pawn_diag_cands x y F) ∧
      ∀ m ∈ (pawn_diag_state b x y p.team F).moves,
        m ∈ pawn_diag_cands x y F ∧ b.get_square m.x m.y = some ⟨'.'⟩) := by
  have hmo := gms_moves_ok b x y p hp (8 * b.w * b.h) st hst
  constructor
  · intro htN
    unfold Board.get_moves_st get_moves_st_fuel at hst
    rw [hp] at hst
    simp only [Option.some_bind] at hst
    rw [htN] at hst
    simp only [Option.some_bind] at hst
    rw [if_neg (by decide), if_neg (by decide), if_neg (by decide), if_neg (by decide)] at hst
    simp only [if_true] at hst
    obtain rfl := (Option.some_inj.mp hst).symm
    constructor
    · intro m hm
      rcases cmat_checked_sub b x y p.team CAN_TAKE (knight_cands x y) ⟨[], []⟩ m hm
        with hc | hnil
      · exact hc
      · exact absurd hnil (by simp [GenSt.checked])
    · intro m hm
      refine ⟨?_, (hmo m hm).2.1⟩
      rcases cmat_moves_sub b x y p.team CAN_TAKE (knight_cands x y) ⟨[], []⟩ m hm
        with hc | hnil
      · exact hc
      · exact absurd hnil (by simp [GenSt.moves])
  · intro F htP hmd
    have hdiag_mo : moves_ok b x y p.team (pawn_diag_state b x y p.team F) :=
      cmat_moves_ok b x y p.team MUST_TAKE (pawn_diag_cands x y F) ⟨[], []⟩
        (moves_ok_empty b x y p.team)
    constructor
    · intro m hm
      rcases cmat_checked_sub b x y p.team MUST_TAKE (pawn_diag_cands x y F) ⟨[], []⟩ m hm
        with hc | hnil
      · exact hc
      · exact absurd hnil (by simp [GenSt.checked])
    · intro m hm
      refine ⟨?_, (hdiag_mo m hm).2.1⟩
      rcases cmat_moves_sub b x y p.team MUST_TAKE (pawn_diag_cands x y F) ⟨[], []⟩ m hm
        with hc | hnil
      · exact hc
      · exact absurd hnil (by simp [GenSt.moves])

/-- Claim C10, witness at `boardKnight`. -/
theorem c10_direct_checks_discard_bounce_witness :
    Move.mk 2 1 2 ∈ knight_cands 0 0 ∧
    boardKnight.get_square 2 1 = some ⟨'.'⟩ :=
  ⟨(((c10_direct_checks_discard_bounce boardKnight 0 0 ⟨'N', 0⟩
        ⟨[⟨2, 1, 2⟩, ⟨1, 2, 4⟩], [⟨2, 1, 2⟩, ⟨1, 2, 4⟩]⟩ (by decide) (by decide)).1
      (by decide)).2 ⟨2, 1, 2⟩ (by decide)).1,
   (((c10_direct_checks_discard_bounce boardKnight 0 0 ⟨'N', 0⟩
        ⟨[⟨2, 1, 2⟩, ⟨1, 2, 4⟩], [⟨2, 1, 2⟩, ⟨1, 2, 4⟩]⟩ (by decide) (by decide)).1
      (by decide)).2 ⟨2, 1, 2⟩ (by decide)).2⟩


theorem cell_enc_head (c : Option Square × Option Piece) (hok : cell_ok c) :
    ∃ ch r, cell_enc c = ch :: r ∧ (ch = '#' ∨ ch ∈ SQUARE_CHARS) := by
  obtain ⟨sq, pc⟩ := c
  cases sq with
  | none => exact ⟨'#', [], rfl, Or.inl rfl⟩
  | some s => exact ⟨s.char, _, rfl, Or.inr (hok.2.1 s rfl)⟩

theorem flatMap_enc_head (l : List (Option Square × Option Piece))
    (hok : ∀ c ∈ l, cell_ok c) (ch : Char) (r : List Char)
    (h : l.flatMap cell_enc = ch :: r) : ch = '#' ∨ ch ∈ SQUARE_CHARS := by
  cases l with
  | nil => simp at h
  | cons c t =>
    rw [List.flatMap_cons] at h
    obtain ⟨ch2, r2, henc, hch⟩ := cell_enc_head c (hok c (List.mem_cons_self c t))
    rw [henc, List.cons_append] at h
    injection h with h1 h2
    rw [← h1]
    exact hch

theorem digit_repr : ∀ n : Nat, n < 10 → (toString ((n : Nat) : Int)).data = [Nat.digitChar n] := by
  decide

theorem digit_not_sq : ∀ n : Nat, n < 10 → ¬ (Nat.digitChar n = '#' ∨ Nat.digitChar n ∈ SQUARE_CHARS) := by
  decide

theorem digit_inj : ∀ n : Nat, n < 10 → ∀ m : Nat, m < 10 →
    Nat.digitChar n = Nat.digitChar m → n = m := by
  decide

theorem team_digit (t : Int) (h0 : 0 ≤ t) (h10 : t < 10) :
    ∃ n : Nat, n < 10 ∧ t = (n : Int) ∧ (toString t).data = [Nat.digitChar n] := by
  refine ⟨t.toNat, by omega, (Int.toNat_of_nonneg h0).symm, ?_⟩
  conv_lhs => rw [(Int.toNat_of_nonneg h0).symm]
  exact digit_repr t.toNat (by omega)

theorem cells_enc_inj : ∀ (l1 l2 : List (Option Square × Option Piece)),
    (∀ c ∈ l1, cell_ok c) → (∀ c ∈ l2, cell_ok c) →
    l1.flatMap cell_enc = l2.flatMap cell_enc → l1 = l2 := by
  intro l1
  induction l1 with
  | nil =>
    intro l2 _ hok2 h
    cases l2 with
    | nil => rfl
    | cons c t =>
      rw [List.flatMap_cons] at h
      obtain ⟨ch, r, henc, -⟩ := cell_enc_head c (hok2 c (List.mem_cons_self c t))
      rw [henc] at h
      simp at h
  | cons c1 t1 ih =>
    intro l2 hok1 hok2 h
    cases l2 with
    | nil =>
      rw [List.flatMap_cons] at h
      obtain ⟨ch, r, henc, -⟩ := cell_enc_head c1 (hok1 c1 (List.mem_cons_self c1 t1))
      rw [henc] at h
      simp at h
    | cons c2 t2 =>
      rw [List.flatMap_cons, List.flatMap_cons] at h
      have hok1h := hok1 c1 (List.mem_cons_self c1 t1)
      have hok2h := hok2 c2 (List.mem_cons_self c2 t2)
      have hok1t : ∀ c ∈ t1, cell_ok c := fun c hc => hok1 c (List.mem_cons_of_mem c1 hc)
      have hok2t : ∀ c ∈ t2, cell_ok c := fun c hc => hok2 c (List.mem_cons_of_mem c2 hc)
      obtain ⟨sq1, pc1⟩ := c1
      obtain ⟨sq2, pc2⟩ := c2
      cases sq1 with
      | none =>
        obtain rfl : pc1 = none := hok1h.1 rfl
        cases sq2 with
        | none =>
          obtain rfl : pc2 = none := hok2h.1 rfl
          simp only [cell_enc, List.cons_append, List.nil_append] at h
          injection h with h1 h2
          rw [ih t2 hok1t hok2t h2]
        | some s2 =>
          have hs2 : s2.char ∈ SQUARE_CHARS := hok2h.2.1 s2 rfl
          simp only [cell_enc, List.cons_append, List.nil_append] at h
          injection h with h1 h2
          rw [← h1] at hs2
          exact absurd hs2 (by decide)
      | some s1 =>
        have hs1 : s1.char ∈ SQUARE_CHARS := hok1h.2.1 s1 rfl
        cases sq2 with
        | none =>
          obtain rfl : pc2 = none := hok2h.1 rfl
          simp only [cell_enc, List.cons_append, List.nil_append] at h
          injection h with h1 h2
          rw [h1] at hs1
          exact absurd hs1 (by decide)
        | some s2 =>
          simp only [cell_enc, List.cons_append] at h
          injection h with hchar htail
          obtain ⟨cs1⟩ := s1
          obtain ⟨cs2⟩ := s2
          simp only at hchar
          subst hchar
          cases pc1 with
          | none =>
            cases pc2 with
            | none =>
              simp only [piece_enc, List.nil_append] at htail
              rw [ih t2 hok1t hok2t htail]
            | some p2 =>
              obtain ⟨hp2a, hp2b⟩ := hok2h.2.2 p2 rfl
              obtain ⟨n2, hn2, hteam2, hrepr2⟩ := team_digit p2.team hp2a hp2b
              simp only [piece_enc, hrepr2, List.nil_append, List.cons_append,
                List.append_assoc, List.singleton_append] at htail
              rcases flatMap_enc_head t1 hok1t _ _ htail with hcase | hcase
              · exact absurd (Or.inl hcase) (digit_not_sq n2 hn2)
              · exact absurd (Or.inr hcase) (digit_not_sq n2 hn2)
          | some p1 =>
            obtain ⟨hp1a, hp1b⟩ := hok1h.2.2 p1 rfl
            obtain ⟨n1, hn1, hteam1, hrepr1⟩ := team_digit p1.team hp1a hp1b
            cases pc2 with
            | none =>
              simp only [piece_enc, hrepr1, List.nil_append, List.cons_append,
                List.append_assoc, List.singleton_append] at htail
              rcases flatMap_enc_head t2 hok2t _ _ htail.symm with hcase | hcase
              · exact absurd (Or.inl hcase) (digit_not_sq n1 hn1)
              · exact absurd (Or.inr hcase) (digit_not_sq n1 hn1)
            | some p2 =>
              obtain ⟨hp2a, hp2b⟩ := hok2h.2.2 p2 rfl
              obtain ⟨n2, hn2, hteam2, hrepr2⟩ := team_digit p2.team hp2a hp2b
              simp only [piece_enc, hrepr1, hrepr2, List.cons_append, List.append_assoc,
                List.singleton_append, List.nil_append] at htail
              injection htail with hd htail2
              injection htail2 with hpc htail3
              have hn12 : n1 = n2 := digit_inj n1 hn1 n2 hn2 hd
              obtain ⟨pch1, ptm1⟩ := p1
              obtain ⟨pch2, ptm2⟩ := p2
              simp only at hpc hteam1 hteam2
              subst hpc
              have hteq : ptm1 = ptm2 := by rw [hteam1, hteam2, hn12]
              subst hteq
              rw [ih t2 hok1t hok2t htail3]

/-- Claim C1, amended: the fingerprint alone does not determine `w` and
`h` (see the counterexample); but together with equal dimensions, squares
and pieces arrays of matching length, and well-formed cells (no piece on
a hole, legal square characters, single-digit teams — the spec's teams
0..4 are), equal fingerprints force the two boards to be identical, hence
equivalent for scoring and move generation at every coordinate. -/
theorem c1_state_id_injective_amended (b1 b2 : Board)
    (hw : b1.w = b2.w) (hh : b1.h = b2.h)
    (hl1 : b1.squares.length = b1.pieces.length)
    (hl2 : b2.squares.length = b2.pieces.length)
    (hok1 : ∀ c ∈ b1.squares.zip b1.pieces, cell_ok c)
    (hok2 : ∀ c ∈ b2.squares.zip b2.pieces, cell_ok c)
    (hid : b1.get_state_id = b2.get_state_id) :
    b1 = b2 := by
  unfold Board.get_state_id at hid
  have hzip := cells_enc_inj _ _ hok1 hok2 hid
  have hlz : (b1.squares.zip b1.pieces).length = (b2.squares.zip b2.pieces).length := by
    rw [hzip]
  rw [List.length_zip, List.length_zip] at hlz
  have hsq : b1.squares = b2.squares := by
    have e1 : (b1.squares.zip b1.pieces).map Prod.fst = b1.squares :=
      List.map_fst_zip b1.squares b1.pieces (by omega)
    have e2 : (b2.squares.zip b2.pieces).map Prod.fst = b2.squares :=
      List.map_fst_zip b2.squares b2.pieces (by omega)
    rw [← e1, ← e2, hzip]
  have hpc : b1.pieces = b2.pieces := by
    have e1 : (b1.squares.zip b1.pieces).map Prod.snd = b1.pieces :=
      List.map_snd_zip b1.squares b1.pieces (by omega)
    have e2 : (b2.squares.zip b2.pieces).map Prod.snd = b2.pieces :=
      List.map_snd_zip b2.squares b2.pieces (by omega)
    rw [← e1, ← e2, hzip]
  cases b1
  cases b2
  simp only at hw hh hsq hpc
  rw [hw, hh, hsq, hpc]

theorem cell_ok_no_piece (sq : Square) (hsq : sq.char ∈ SQUARE_CHARS) :
    cell_ok (some sq, none) := by
  refine ⟨by simp, ?_, by simp⟩
  intro s hs
  injection hs with hs2
  rw [← hs2]
  exact hsq

theorem cell_ok_piece (sq : Square) (p : Piece) (hsq : sq.char ∈ SQUARE_CHARS)
    (h1 : 0 ≤ p.team) (h2 : p.team < 10) : cell_ok (some sq, some p) := by
  refine ⟨by simp, ?_, ?_⟩
  · intro s hs
    injection hs with hs2
    rw [← hs2]
    exact hsq
  · intro q hq
    injection hq with hq2
    rw [← hq2]
    exact ⟨h1, h2⟩

theorem boardTall_cells_ok : ∀ c ∈ boardTall.squares.zip boardTall.pieces, cell_ok c := by
  intro c hc
  rw [show boardTall.squares.zip boardTall.pieces =
    [(some ⟨'.'⟩, some ⟨'K', 0⟩), (some ⟨'.'⟩, none)] from rfl] at hc
  rcases List.mem_cons.mp hc with rfl | hc2
  · exact cell_ok_piece ⟨'.'⟩ ⟨'K', 0⟩ (by decide) (by decide) (by decide)
  rcases List.mem_cons.mp hc2 with rfl | hc3
  · exact cell_ok_no_piece ⟨'.'⟩ (by decide)
  · exact absurd hc3 (by simp)

/-- Claim C1, witness: the amended theorem applied to two copies of
`boardTall`, whose cells are all well-formed. -/
theorem c1_state_id_injective_amended_witness :
    boardTall = boardTall :=
  c1_state_id_injective_amended boardTall boardTall rfl rfl rfl rfl
    boardTall_cells_ok boardTall_cells_ok rfl

end ChessAdvent
